import Mathlib

/-!
# Bitonic merge sort (`src/src.go`)

A shallow embedding of the sorting core of the Go program and a verification of
its specification.

* The Go slice `a []int` is a `List Int`; an in-place write `a[i] = v` is
  `List.set`.  Elements are only compared and moved, never computed with, so the
  64-bit width of `int` plays no role for them.
* Indices and counts (`i`, `j`, `low`, `cnt`, `n`) are natural numbers: every
  statement below is about non-negative ranges that fit into the slice, where
  `int` arithmetic on them cannot wrap.
* The thread budget `availableThreads` stays a signed integer, and
  `availableThreads >> 1` is the arithmetic shift `Int.shiftRight` by one bit.
* Reading or writing `a[i]` with `i` outside the slice is a run-time panic in
  Go: the embedding returns `Err.indexOutOfRange`.
* `bitonicMerge` and `bitonicSort` recurse on `cnt / 2 < cnt` and terminate.
  The dispatcher `bitonicSortParallel` recurses on the thread budget and is not
  guarded against budgets below one, so it carries a fuel argument that bounds
  the nesting depth of its calls; `Err.outOfFuel` is returned when that depth
  is exceeded.
* Fork and join: the goroutine for the left half and the inline call for the
  right half are run one after the other (left, right), followed by the merge
  after `wg.Wait()`.
-/

namespace Bitonic

/-- Ways in which a run can fail to produce a slice. -/
inductive Err where
  | indexOutOfRange : Err
  | outOfFuel : Err
  deriving DecidableEq

/-- Outcome of running a function that mutates the slice in place. -/
abbrev Run := Except Err (List Int)

/-- Source `cmpAndSwap` (lines 15-19): `if dir == (a[i] > a[j]) { a[i], a[j] = a[j], a[i] }`.
Both index expressions are evaluated by the comparison first. -/
def cmpAndSwap (a : List Int) (i j : Nat) (dir : Bool) : Run :=
  match a[i]?, a[j]? with
  | some x, some y =>
    if dir == decide (x > y) then .ok ((a.set i y).set j x) else .ok a
  | _, _ => .error Err.indexOutOfRange

/-- The loop of `bitonicMerge` (lines 28-30): `for i := low; i < low + k; i++ { cmpAndSwap(a, i, i + k, dir) }`,
started at the current value of `i` with `rem` iterations left (`rem = low + k - i`). -/
def mergeLoop (a : List Int) (i rem k : Nat) (dir : Bool) : Run :=
  match rem with
  | 0 => .ok a
  | rem + 1 => do
    let a1 ← cmpAndSwap a i (i + k) dir
    mergeLoop a1 (i + 1) rem k dir

/-- Source `bitonicMerge` (lines 25-34). -/
def bitonicMerge (a : List Int) (low cnt : Nat) (dir : Bool) : Run :=
  if cnt > 1 then do
    let k := cnt / 2
    let a1 ← mergeLoop a low k k dir
    let a2 ← bitonicMerge a1 low k dir
    bitonicMerge a2 (low + k) k dir
  else .ok a
termination_by cnt
decreasing_by all_goals omega

/-- Source `bitonicSort` (lines 39-50). -/
def bitonicSort (a : List Int) (low cnt : Nat) (dir : Bool) : Run :=
  if cnt > 1 then do
    let k := cnt / 2
    let a1 ← bitonicSort a low k true
    let a2 ← bitonicSort a1 (low + k) k false
    bitonicMerge a2 low cnt dir
  else .ok a
termination_by cnt
decreasing_by all_goals omega

/-- Source `bitonicSortParallel` (lines 53-68).  The first argument bounds the
nesting depth of dispatcher calls. -/
def bitonicSortParallel (fuel : Nat) (a : List Int) (low cnt : Nat) (dir : Bool)
    (availableThreads : Int) : Run :=
  match fuel with
  | 0 => .error Err.outOfFuel
  | fuel + 1 =>
    if availableThreads = 1 then
      bitonicSort a low cnt dir
    else do
      let k := cnt / 2
      let a1 ← bitonicSortParallel fuel a low k true (availableThreads >>> (1 : Nat))
      let a2 ← bitonicSortParallel fuel a1 (low + k) k false (availableThreads >>> (1 : Nat))
      bitonicMerge a2 low cnt dir

/-- Source `sort` (lines 72-74). -/
def sort (a : List Int) (N : Nat) (up : Bool) : Run :=
  bitonicSort a 0 N up

/-- Source `sortParallel` (lines 77-81). -/
def sortParallel (fuel : Nat) (a : List Int) (n : Nat) (threadCount : Int) : Run :=
  bitonicSortParallel fuel a 0 n true threadCount

/-! ## Vocabulary of the specification -/

/-- Value stored at index `p` of the slice (`0` when `p` is outside it). -/
def val (a : List Int) (p : Nat) : Int := (a[p]?).getD 0

/-- The value `cmpAndSwap` leaves at the lower index of a pair. -/
def lowOf (dir : Bool) (x y : Int) : Int := if dir then min x y else max x y

/-- The value `cmpAndSwap` leaves at the upper index of a pair. -/
def highOf (dir : Bool) (x y : Int) : Int := if dir then max x y else min x y

/-- Index `i` lies on the cyclic arc of `len` positions that starts at `s` on a
circle of `n` positions. -/
def inArc (s len n i : Nat) : Prop := (s ≤ i ∧ i < s + len) ∨ (i + n < s + len)

/-- Index `i` lies in the block of `len` positions at the end (ascending) or at
the start (descending) of a range of `n` positions. -/
def inBlock (dir : Bool) (len n i : Nat) : Prop :=
  (dir = true ∧ n ≤ len + i) ∨ (dir = false ∧ i < len)

/-- The sub-sequence `a[low .. low + cnt)`. -/
def segment (a : List Int) (low cnt : Nat) : List Int := (a.drop low).take cnt

/-- A bitonic sequence: a cyclic rotation of a non-decreasing run followed by a
non-increasing run. -/
def IsBitonic (l : List Int) : Prop :=
  ∃ u v : List Int, u.Sorted (· ≤ ·) ∧ v.Sorted (· ≥ ·) ∧ List.IsRotated l (u ++ v)

/-! ## The calls a run makes

The control flow of the program never looks at the elements: which calls are made
depends on `low`, `cnt`, `dir` and the budget only.  The definitions below follow
the source functions once more and record the calls instead of performing them. -/

/-- One call `cmpAndSwap(a, i, j, dir)`. -/
structure SwapCall where
  i : Nat
  j : Nat
  dir : Bool
  deriving DecidableEq

/-- The `cmpAndSwap` calls of the loop of `bitonicMerge` (lines 28-30), in order. -/
def loopPairs (i rem k : Nat) (dir : Bool) : List SwapCall :=
  match rem with
  | 0 => []
  | rem + 1 => ⟨i, i + k, dir⟩ :: loopPairs (i + 1) rem k dir

/-- The `cmpAndSwap` calls of `bitonicMerge(a, low, cnt, dir)` (lines 25-34), in order. -/
def mergePairs (low cnt : Nat) (dir : Bool) : List SwapCall :=
  if cnt > 1 then
    loopPairs low (cnt / 2) (cnt / 2) dir ++
      (mergePairs low (cnt / 2) dir ++ mergePairs (low + cnt / 2) (cnt / 2) dir)
  else []
termination_by cnt
decreasing_by all_goals omega

/-- The `cmpAndSwap` calls of `bitonicSort(a, low, cnt, dir)` (lines 39-50), in order. -/
def sortPairs (low cnt : Nat) (dir : Bool) : List SwapCall :=
  if cnt > 1 then
    sortPairs low (cnt / 2) true ++
      (sortPairs (low + cnt / 2) (cnt / 2) false ++ mergePairs low cnt dir)
  else []
termination_by cnt
decreasing_by all_goals omega

/-- The `cmpAndSwap` calls of `bitonicSortParallel` (lines 53-68): those of the left
half, of the right half, then of the merge.  `none` when the fuel runs out. -/
def parallelPairs (fuel : Nat) (low cnt : Nat) (dir : Bool) (availableThreads : Int) :
    Option (List SwapCall) :=
  match fuel with
  | 0 => none
  | fuel + 1 =>
    if availableThreads = 1 then
      some (sortPairs low cnt dir)
    else
      match parallelPairs fuel low (cnt / 2) true (availableThreads >>> (1 : Nat)),
        parallelPairs fuel (low + cnt / 2) (cnt / 2) false (availableThreads >>> (1 : Nat)) with
      | some l, some r => some (l ++ (r ++ mergePairs low cnt dir))
      | _, _ => none

/-- Performing a list of `cmpAndSwap` calls one after the other. -/
def runPairs (a : List Int) (ps : List SwapCall) : Run :=
  match ps with
  | [] => .ok a
  | p :: ps => do
    let a1 ← cmpAndSwap a p.i p.j p.dir
    runPairs a1 ps

/-- The dispatcher calls of one run of `bitonicSortParallel`, with the arguments
`low`, `cnt`, `dir`, `availableThreads` of each: a call with budget one delegates
to `bitonicSort`, every other call forks a left and a right dispatcher call. -/
inductive CallTree where
  | leaf (low cnt : Nat) (dir : Bool) (budget : Int) : CallTree
  | fork (low cnt : Nat) (dir : Bool) (budget : Int) (left right : CallTree) : CallTree
  deriving DecidableEq

/-- The dispatcher calls made by `bitonicSortParallel(a, low, cnt, dir, availableThreads)`
(lines 53-68).  `none` when the nesting of calls exceeds the fuel. -/
def dispatchTree (fuel : Nat) (low cnt : Nat) (dir : Bool) (availableThreads : Int) :
    Option CallTree :=
  match fuel with
  | 0 => none
  | fuel + 1 =>
    if availableThreads = 1 then
      some (.leaf low cnt dir availableThreads)
    else
      match dispatchTree fuel low (cnt / 2) true (availableThreads >>> (1 : Nat)),
        dispatchTree fuel (low + cnt / 2) (cnt / 2) false (availableThreads >>> (1 : Nat)) with
      | some l, some r => some (.fork low cnt dir availableThreads l r)
      | _, _ => none

/-- Budget received by the call at the root. -/
def CallTree.budget : CallTree → Int
  | .leaf _ _ _ t => t
  | .fork _ _ _ t _ _ => t

/-- Count of the range handled by the call at the root. -/
def CallTree.count : CallTree → Nat
  | .leaf _ cnt _ _ => cnt
  | .fork _ cnt _ _ _ _ => cnt

/-- Nesting depth of forking dispatcher calls. -/
def CallTree.depth : CallTree → Nat
  | .leaf _ _ _ _ => 0
  | .fork _ _ _ _ l r => 1 + max l.depth r.depth

/-- Number of calls that delegate to sequential `bitonicSort`. -/
def CallTree.leaves : CallTree → Nat
  | .leaf _ _ _ _ => 1
  | .fork _ _ _ _ l r => l.leaves + r.leaves

/-- Budgets received by all the dispatcher calls of the tree. -/
def CallTree.budgets : CallTree → List Int
  | .leaf _ _ _ t => [t]
  | .fork _ _ _ t l r => t :: (l.budgets ++ r.budgets)

/-- Counts of the ranges on which a dispatcher call forks. -/
def CallTree.forkCounts : CallTree → List Nat
  | .leaf _ _ _ _ => []
  | .fork _ cnt _ _ l r => cnt :: (l.forkCounts ++ r.forkCounts)

/-- The budget discipline of the dispatcher: a delegating call holds budget one; a
forking call holds a budget other than one and hands `budget >> 1`, a smaller
budget, to both of its children, which handle the two halves of its range. -/
def CallTree.WellBudgeted : CallTree → Prop
  | .leaf _ _ _ t => t = 1
  | .fork _ cnt _ t l r =>
    t ≠ 1 ∧ l.budget = t >>> (1 : Nat) ∧ r.budget = t >>> (1 : Nat) ∧
      l.budget < t ∧ r.budget < t ∧ l.count = cnt / 2 ∧ r.count = cnt / 2 ∧
      l.WellBudgeted ∧ r.WellBudgeted

/-! ## Unfolding the definitions -/

theorem ok_bind (x : List Int) (f : List Int → Run) :
    (Except.ok x >>= f) = f x := rfl

theorem error_bind (e : Err) (f : List Int → Run) :
    ((Except.error e : Run) >>= f) = Except.error e := rfl

theorem bitonicMerge_of_le {cnt : Nat} (a : List Int) (low : Nat) (dir : Bool) (h : cnt ≤ 1) :
    bitonicMerge a low cnt dir = .ok a := by
  rw [bitonicMerge, if_neg (by omega)]

theorem bitonicMerge_of_gt {cnt : Nat} (a : List Int) (low : Nat) (dir : Bool) (h : 1 < cnt) :
    bitonicMerge a low cnt dir =
      (mergeLoop a low (cnt / 2) (cnt / 2) dir >>= fun a1 =>
        bitonicMerge a1 low (cnt / 2) dir >>= fun a2 =>
          bitonicMerge a2 (low + cnt / 2) (cnt / 2) dir) := by
  rw [bitonicMerge, if_pos h]

theorem bitonicSort_of_le {cnt : Nat} (a : List Int) (low : Nat) (dir : Bool) (h : cnt ≤ 1) :
    bitonicSort a low cnt dir = .ok a := by
  rw [bitonicSort, if_neg (by omega)]

theorem bitonicSort_of_gt {cnt : Nat} (a : List Int) (low : Nat) (dir : Bool) (h : 1 < cnt) :
    bitonicSort a low cnt dir =
      (bitonicSort a low (cnt / 2) true >>= fun a1 =>
        bitonicSort a1 (low + cnt / 2) (cnt / 2) false >>= fun a2 =>
          bitonicMerge a2 low cnt dir) := by
  rw [bitonicSort, if_pos h]


/-! ## Reading the slice -/

theorem getElem?_eq_some_val {a : List Int} {p : Nat} (h : p < a.length) :
    a[p]? = some (val a p) := by
  simp [val, List.getElem?_eq_getElem h]

theorem val_congr {a b : List Int} {p : Nat} (h : b[p]? = a[p]?) : val b p = val a p := by
  simp [val, h]

theorem shiftRight_one (t : Int) : t >>> (1 : Nat) = t / 2 := by
  rw [Int.shiftRight_eq_div_pow]
  norm_num

/-! ## `cmpAndSwap` -/

theorem swap_perm (a : List Int) (i j : Nat) (hi : i < a.length) (hj : j < a.length) :
    ((a.set i (val a j)).set j (val a i)).Perm a := by
  have hvi : val a i = a[i] := by simp [val, List.getElem?_eq_getElem hi]
  have hvj : val a j = a[j] := by simp [val, List.getElem?_eq_getElem hj]
  rw [hvi, hvj, List.perm_iff_count]
  intro c
  have hj1 : j < (a.set i a[j]).length := by simpa using hj
  rw [List.count_set _ _ _ _ hj1, List.count_set _ _ _ _ hi]
  have h1 := List.count_pos_iff.mpr (List.getElem_mem hi)
  by_cases hij : i = j
  · subst hij
    simp only [List.getElem_set_self]
    by_cases hc : a[i] = c
    · have h2 : 0 < List.count c a := hc ▸ h1
      simp [hc]; omega
    · simp [hc]
  · rw [List.getElem_set_ne hij]
    have h3 := List.count_pos_iff.mpr (List.getElem_mem hj)
    by_cases hc : a[i] = c <;> by_cases hd : a[j] = c
    · have h2 : 0 < List.count c a := hc ▸ h1
      simp [hc, hd]; omega
    · have h2 : 0 < List.count c a := hc ▸ h1
      simp [hc, hd]; omega
    · have h2 : 0 < List.count c a := hd ▸ h3
      simp [hc, hd]
    · simp [hc, hd]

/-- What one `cmpAndSwap` does to a slice, for two distinct indices inside it. -/
theorem cmpAndSwap_spec (a : List Int) (i j : Nat) (dir : Bool)
    (hi : i < a.length) (hj : j < a.length) (hij : i ≠ j) :
    ∃ b, cmpAndSwap a i j dir = .ok b ∧ b.length = a.length ∧ b.Perm a ∧
      (∀ p, p ≠ i → p ≠ j → b[p]? = a[p]?) ∧
      val b i = lowOf dir (val a i) (val a j) ∧
      val b j = highOf dir (val a i) (val a j) := by
  have hpm := swap_perm a i j hi hj
  unfold cmpAndSwap
  rw [getElem?_eq_some_val hi, getElem?_eq_some_val hj]
  simp only []
  by_cases hsw : dir = decide (val a i > val a j)
  · rw [if_pos (by simpa using hsw)]
    refine ⟨_, rfl, by simp, hpm, ?_, ?_, ?_⟩
    · intro p hp1 hp2
      rw [List.getElem?_set_ne (Ne.symm hp2), List.getElem?_set_ne (Ne.symm hp1)]
    · have : val ((a.set i (val a j)).set j (val a i)) i = val a j := by
        simp [val, List.getElem?_set_ne (Ne.symm hij), hi]
      rw [this]
      cases dir <;> simp [lowOf] at hsw ⊢ <;> omega
    · have : val ((a.set i (val a j)).set j (val a i)) j = val a i := by
        simp [val, hj]
      rw [this]
      cases dir <;> simp [highOf] at hsw ⊢ <;> omega
  · rw [if_neg (by simpa using hsw)]
    refine ⟨_, rfl, rfl, List.Perm.refl _, fun _ _ _ => rfl, ?_, ?_⟩
    · cases dir <;> simp [lowOf] at hsw ⊢ <;> omega
    · cases dir <;> simp [highOf] at hsw ⊢ <;> omega

/-! ## The compare-exchange loop of `bitonicMerge` -/

/-- The loop started at `i` with `rem ≤ k` iterations left exchanges the pairs
`(p, p + k)` for `i ≤ p < i + rem` and touches nothing else. -/
theorem mergeLoop_spec (dir : Bool) (k : Nat) :
    ∀ (rem : Nat) (a : List Int) (i : Nat), rem ≤ k → i + rem + k ≤ a.length →
      ∃ b, mergeLoop a i rem k dir = .ok b ∧ b.length = a.length ∧ b.Perm a ∧
        (∀ p, ¬ (i ≤ p ∧ p < i + rem) → ¬ (i + k ≤ p ∧ p < i + rem + k) → b[p]? = a[p]?) ∧
        (∀ p, i ≤ p → p < i + rem →
          val b p = lowOf dir (val a p) (val a (p + k)) ∧
          val b (p + k) = highOf dir (val a p) (val a (p + k))) := by
  intro rem
  induction rem with
  | zero =>
    intro a i _ _
    exact ⟨a, rfl, rfl, List.Perm.refl _, fun _ _ _ => rfl, fun p h1 h2 => by omega⟩
  | succ rem ih =>
    intro a i hk hlen
    obtain ⟨a1, e1, l1, p1, f1, v1, w1⟩ :=
      cmpAndSwap_spec a i (i + k) dir (by omega) (by omega) (by omega)
    obtain ⟨b, e2, l2, p2, f2, v2⟩ := ih a1 (i + 1) (by omega) (by omega)
    refine ⟨b, ?_, by omega, p2.trans p1, ?_, ?_⟩
    · simp only [mergeLoop, e1, e2, ok_bind]
    · intro p h1 h2
      rw [f2 p (by omega) (by omega), f1 p (by omega) (by omega)]
    · intro p hp1 hp2
      by_cases hpi : p = i
      · subst hpi
        rw [val_congr (f2 p (by omega) (by omega)),
          val_congr (f2 (p + k) (by omega) (by omega)), v1, w1]
        exact ⟨rfl, rfl⟩
      · obtain ⟨h3, h4⟩ := v2 p (by omega) (by omega)
        rw [h3, h4, val_congr (f1 p (by omega) (by omega)),
          val_congr (f1 (p + k) (by omega) (by omega))]
        exact ⟨rfl, rfl⟩

/-! ## Frame and permutation: what the recursive functions leave alone -/

/-- On a range inside the slice `bitonicMerge` returns, keeps the length,
permutes the elements and changes nothing outside `[low, low + cnt)`. -/
theorem bitonicMerge_frame :
    ∀ (cnt : Nat) (a : List Int) (low : Nat) (dir : Bool), low + cnt ≤ a.length →
      ∃ b, bitonicMerge a low cnt dir = .ok b ∧ b.length = a.length ∧ b.Perm a ∧
        ∀ p, p < low ∨ low + cnt ≤ p → b[p]? = a[p]? := by
  intro cnt
  induction cnt using Nat.strong_induction_on with
  | _ cnt ih =>
    intro a low dir hlen
    by_cases h : 1 < cnt
    · obtain ⟨a1, e1, l1, p1, f1, -⟩ :=
        mergeLoop_spec dir (cnt / 2) (cnt / 2) a low (le_refl _) (by omega)
      obtain ⟨a2, e2, l2, p2, f2⟩ := ih (cnt / 2) (by omega) a1 low dir (by omega)
      obtain ⟨b, e3, l3, p3, f3⟩ := ih (cnt / 2) (by omega) a2 (low + cnt / 2) dir (by omega)
      refine ⟨b, ?_, by omega, (p3.trans p2).trans p1, ?_⟩
      · rw [bitonicMerge_of_gt a low dir h]
        simp only [e1, e2, e3, ok_bind]
      · intro p hp
        rw [f3 p (by omega), f2 p (by omega), f1 p (by omega) (by omega)]
    · exact ⟨a, bitonicMerge_of_le a low dir (by omega), rfl, List.Perm.refl _, fun _ _ => rfl⟩

/-- On a range inside the slice `bitonicSort` returns, keeps the length,
permutes the elements and changes nothing outside `[low, low + cnt)`. -/
theorem bitonicSort_frame :
    ∀ (cnt : Nat) (a : List Int) (low : Nat) (dir : Bool), low + cnt ≤ a.length →
      ∃ b, bitonicSort a low cnt dir = .ok b ∧ b.length = a.length ∧ b.Perm a ∧
        ∀ p, p < low ∨ low + cnt ≤ p → b[p]? = a[p]? := by
  intro cnt
  induction cnt using Nat.strong_induction_on with
  | _ cnt ih =>
    intro a low dir hlen
    by_cases h : 1 < cnt
    · obtain ⟨a1, e1, l1, p1, f1⟩ := ih (cnt / 2) (by omega) a low true (by omega)
      obtain ⟨a2, e2, l2, p2, f2⟩ := ih (cnt / 2) (by omega) a1 (low + cnt / 2) false (by omega)
      obtain ⟨b, e3, l3, p3, f3⟩ := bitonicMerge_frame cnt a2 low dir (by omega)
      refine ⟨b, ?_, by omega, (p3.trans p2).trans p1, ?_⟩
      · rw [bitonicSort_of_gt a low dir h]
        simp only [e1, e2, e3, ok_bind]
      · intro p hp
        rw [f3 p (by omega), f2 p (by omega), f1 p (by omega)]
    · exact ⟨a, bitonicSort_of_le a low dir (by omega), rfl, List.Perm.refl _, fun _ _ => rfl⟩

/-! ## Thresholds: the zero-one view of the merge network -/

theorem lt_lowOf (dir : Bool) (c x y : Int) :
    c < lowOf dir x y ↔ (dir = true ∧ c < x ∧ c < y) ∨ (dir = false ∧ (c < x ∨ c < y)) := by
  cases dir <;> simp [lowOf]

theorem lt_highOf (dir : Bool) (c x y : Int) :
    c < highOf dir x y ↔ (dir = true ∧ (c < x ∨ c < y)) ∨ (dir = false ∧ c < x ∧ c < y) := by
  cases dir <;> simp [highOf]

/-- Pairing position `i` with `i + k` on an arc of a circle of `2 * k` positions:
both lie on the arc exactly on an arc of length `len - k` of the half circle, and
one of them does exactly on an arc of length `min len k`. -/
theorem arc_halve (k s len : Nat) (hs : s ≤ 2 * k) (hl : len ≤ 2 * k) :
    ∃ s', s' ≤ k ∧ ∀ i, i < k →
      ((inArc s len (2 * k) i ∧ inArc s len (2 * k) (i + k)) ↔ inArc s' (len - k) k i) ∧
      ((inArc s len (2 * k) i ∨ inArc s len (2 * k) (i + k)) ↔ inArc s' (min len k) k i) := by
  by_cases h : s < k
  · refine ⟨s, by omega, fun i hi => ?_⟩
    unfold inArc
    constructor <;> omega
  · refine ⟨s - k, by omega, fun i hi => ?_⟩
    unfold inArc
    constructor <;> omega

/-- Zero-one view of `bitonicMerge`: fix a threshold `c`.  If the positions of the
range holding a value above `c` form a cyclic arc of length `len`, then after the
merge they form the block of the last `len` positions (ascending) or of the first
`len` positions (descending). -/
theorem bitonicMerge_threshold (c : Int) :
    ∀ (m n : Nat), n = 2 ^ m →
      ∀ (a : List Int) (low : Nat) (dir : Bool) (s len : Nat) (b : List Int),
        low + n ≤ a.length → s ≤ n → len ≤ n →
        (∀ i, i < n → (c < val a (low + i) ↔ inArc s len n i)) →
        bitonicMerge a low n dir = .ok b →
        ∀ i, i < n → (c < val b (low + i) ↔ inBlock dir len n i) := by
  intro m
  induction m with
  | zero =>
    intro n hn a low dir s len b hlen hs hl harc hb i hi
    have hn1 : n = 1 := by simpa using hn
    subst hn1
    rw [bitonicMerge_of_le a low dir (le_refl _)] at hb
    cases hb
    rw [harc i hi]
    unfold inArc inBlock
    cases dir <;> simp <;> omega
  | succ m ih =>
    intro n hn a low dir s len b hlen hs hl harc hb
    have hk : n / 2 = 2 ^ m := by rw [hn, pow_succ]; omega
    have hpos : 0 < 2 ^ m := Nat.two_pow_pos m
    have hn2 : n = 2 * (n / 2) := by rw [hk, hn, pow_succ]; omega
    generalize hkk : n / 2 = k at hk hn2
    have hgt : 1 < n := by omega
    obtain ⟨s', hs', harcs⟩ := arc_halve k s len (by omega) (by omega)
    obtain ⟨a1, e1, l1, -, f1, v1⟩ := mergeLoop_spec dir k k a low (le_refl _) (by omega)
    obtain ⟨a2, e2, l2, -, f2⟩ := bitonicMerge_frame k a1 low dir (by omega)
    obtain ⟨b', e3, l3, -, f3⟩ := bitonicMerge_frame k a2 (low + k) dir (by omega)
    rw [bitonicMerge_of_gt a low dir hgt, hkk] at hb
    simp only [e1, e2, e3, ok_bind] at hb
    cases hb
    -- thresholds of the two halves after the compare-exchange loop
    have hpair : ∀ i, i < k →
        (c < val a (low + i) ↔ inArc s len (2 * k) i) ∧
        (c < val a (low + i + k) ↔ inArc s len (2 * k) (i + k)) := by
      intro i hi
      have h1 := harc i (by omega)
      have h2 := harc (i + k) (by omega)
      rw [← hn2]
      rw [show low + (i + k) = low + i + k by omega] at h2
      exact ⟨h1, h2⟩
    have hlow1 : ∀ i, i < k → (c < val a1 (low + i) ↔
        (dir = true ∧ inArc s' (len - k) k i) ∨ (dir = false ∧ inArc s' (min len k) k i)) := by
      intro i hi
      rw [(v1 (low + i) (by omega) (by omega)).1, lt_lowOf, (hpair i hi).1, (hpair i hi).2,
        (harcs i hi).1, (harcs i hi).2]
    have hhigh1 : ∀ i, i < k → (c < val a1 (low + k + i) ↔
        (dir = true ∧ inArc s' (min len k) k i) ∨ (dir = false ∧ inArc s' (len - k) k i)) := by
      intro i hi
      rw [show low + k + i = low + i + k by omega, (v1 (low + i) (by omega) (by omega)).2,
        lt_highOf, (hpair i hi).1, (hpair i hi).2, (harcs i hi).1, (harcs i hi).2]
    intro i hi
    cases dir with
    | true =>
      have hL := ih k hk a1 low true s' (len - k) a2 (by omega) hs' (by omega)
        (fun i hi => by simpa using hlow1 i hi) e2
      have hU := ih k hk a2 (low + k) true s' (min len k) b (by omega) hs' (by omega)
        (fun i hi => by
          rw [val_congr (f2 (low + k + i) (by omega))]
          simpa using hhigh1 i hi) e3
      by_cases hik : i < k
      · rw [val_congr (f3 (low + i) (by omega)), hL i hik]
        unfold inBlock
        simp
        omega
      · have := hU (i - k) (by omega)
        rw [show low + k + (i - k) = low + i by omega] at this
        rw [this]
        unfold inBlock
        simp
        omega
    | false =>
      have hL := ih k hk a1 low false s' (min len k) a2 (by omega) hs' (by omega)
        (fun i hi => by simpa using hlow1 i hi) e2
      have hU := ih k hk a2 (low + k) false s' (len - k) b (by omega) hs' (by omega)
        (fun i hi => by
          rw [val_congr (f2 (low + k + i) (by omega))]
          simpa using hhigh1 i hi) e3
      by_cases hik : i < k
      · rw [val_congr (f3 (low + i) (by omega)), hL i hik]
        unfold inBlock
        simp
        omega
      · have := hU (i - k) (by omega)
        rw [show low + k + (i - k) = low + i by omega] at this
        rw [this]
        unfold inBlock
        simp
        omega

/-- Zero-one view of `bitonicSort`: for every threshold `c` the positions of the
sorted range holding a value above `c` form a block at its end (ascending) or at
its start (descending). -/
theorem bitonicSort_threshold (c : Int) :
    ∀ (m n : Nat), n = 2 ^ m →
      ∀ (a : List Int) (low : Nat) (dir : Bool) (b : List Int),
        low + n ≤ a.length → bitonicSort a low n dir = .ok b →
        ∃ len, len ≤ n ∧ ∀ i, i < n → (c < val b (low + i) ↔ inBlock dir len n i) := by
  intro m
  induction m with
  | zero =>
    intro n hn a low dir b hlen hb
    have hn1 : n = 1 := by simpa using hn
    subst hn1
    rw [bitonicSort_of_le a low dir (le_refl _)] at hb
    cases hb
    by_cases hc : c < val a low
    · refine ⟨1, le_refl _, fun i hi => ?_⟩
      have hi0 : i = 0 := by omega
      subst hi0
      unfold inBlock
      cases dir <;> simp [hc]
    · refine ⟨0, by omega, fun i hi => ?_⟩
      have hi0 : i = 0 := by omega
      subst hi0
      unfold inBlock
      cases dir <;> simp [hc]
  | succ m ih =>
    intro n hn a low dir b hlen hb
    have hk : n / 2 = 2 ^ m := by rw [hn, pow_succ]; omega
    have hpos : 0 < 2 ^ m := Nat.two_pow_pos m
    have hn2 : n = 2 * (n / 2) := by rw [hk, hn, pow_succ]; omega
    have hgt : 1 < n := by omega
    obtain ⟨a1, e1, l1, -, f1⟩ := bitonicSort_frame (n / 2) a low true (by omega)
    obtain ⟨a2, e2, l2, -, f2⟩ := bitonicSort_frame (n / 2) a1 (low + n / 2) false (by omega)
    rw [bitonicSort_of_gt a low dir hgt] at hb
    simp only [e1, e2, ok_bind] at hb
    obtain ⟨len1, hl1, h1⟩ := ih (n / 2) hk a low true a1 (by omega) e1
    obtain ⟨len2, hl2, h2⟩ := ih (n / 2) hk a1 (low + n / 2) false a2 (by omega) e2
    refine ⟨len1 + len2, by omega, ?_⟩
    refine bitonicMerge_threshold c (m + 1) n hn a2 low dir (n / 2 - len1) (len1 + len2) b
      (by omega) (by omega) (by omega) ?_ hb
    intro i hi
    by_cases hik : i < n / 2
    · rw [val_congr (f2 (low + i) (by omega)), h1 i hik]
      unfold inBlock inArc
      simp
      omega
    · have := h2 (i - n / 2) (by omega)
      rw [show low + n / 2 + (i - n / 2) = low + i by omega] at this
      rw [this]
      unfold inBlock inArc
      simp
      omega

/-- A range whose values above every threshold sit in a block at its end is ascending. -/
theorem ascending_of_blocks (b : List Int) (low n : Nat)
    (h : ∀ c : Int, ∃ len, len ≤ n ∧ ∀ i, i < n → (c < val b (low + i) ↔ inBlock true len n i)) :
    ∀ i j, i ≤ j → j < n → val b (low + i) ≤ val b (low + j) := by
  intro i j hij hj
  by_contra hlt
  obtain ⟨len, -, hlen⟩ := h (val b (low + j))
  have h1 := (hlen i (by omega)).mp (by omega)
  have h2 := (hlen j hj).mpr (by
    unfold inBlock at h1 ⊢
    simp at h1 ⊢
    omega)
  omega

/-- A range whose values above every threshold sit in a block at its start is descending. -/
theorem descending_of_blocks (b : List Int) (low n : Nat)
    (h : ∀ c : Int, ∃ len, len ≤ n ∧ ∀ i, i < n → (c < val b (low + i) ↔ inBlock false len n i)) :
    ∀ i j, i ≤ j → j < n → val b (low + j) ≤ val b (low + i) := by
  intro i j hij hj
  by_contra hlt
  obtain ⟨len, -, hlen⟩ := h (val b (low + i))
  have h1 := (hlen j hj).mp (by omega)
  have h2 := (hlen i (by omega)).mpr (by
    unfold inBlock at h1 ⊢
    simp at h1 ⊢
    omega)
  omega

/-! ## Sub-sequences and sortedness -/

theorem length_segment {a : List Int} {low cnt : Nat} (h : low + cnt ≤ a.length) :
    (segment a low cnt).length = cnt := by
  simp [segment]
  omega

theorem val_segment {a : List Int} {low cnt i : Nat} (hi : i < cnt) :
    val (segment a low cnt) i = val a (low + i) := by
  simp [val, segment, List.getElem?_take, hi]

theorem segment_zero_length (a : List Int) : segment a 0 a.length = a := by
  simp [segment]

theorem val_eq_getElem {l : List Int} {i : Nat} (h : i < l.length) : val l i = l[i] := by
  simp [val, List.getElem?_eq_getElem h]

theorem sorted_le_iff_val (l : List Int) :
    l.Sorted (· ≤ ·) ↔ ∀ i j, i ≤ j → j < l.length → val l i ≤ val l j := by
  unfold List.Sorted
  rw [List.pairwise_iff_getElem]
  constructor
  · intro h i j hij hj
    rcases Nat.lt_or_eq_of_le hij with hlt | heq
    · rw [val_eq_getElem (by omega : i < l.length), val_eq_getElem hj]
      exact h i j (by omega) hj hlt
    · subst heq
      exact le_refl _
  · intro h i j hi hj hij
    have := h i j (by omega) hj
    rwa [val_eq_getElem hi, val_eq_getElem hj] at this

theorem sorted_ge_iff_val (l : List Int) :
    l.Sorted (· ≥ ·) ↔ ∀ i j, i ≤ j → j < l.length → val l j ≤ val l i := by
  unfold List.Sorted
  rw [List.pairwise_iff_getElem]
  constructor
  · intro h i j hij hj
    rcases Nat.lt_or_eq_of_le hij with hlt | heq
    · rw [val_eq_getElem (by omega : i < l.length), val_eq_getElem hj]
      exact h i j (by omega) hj hlt
    · subst heq
      exact le_refl _
  · intro h i j hi hj hij
    have := h i j (by omega) hj
    rwa [val_eq_getElem hi, val_eq_getElem hj] at this

theorem segment_sorted_le {b : List Int} {low n : Nat} (hlen : low + n ≤ b.length)
    (h : ∀ i j, i ≤ j → j < n → val b (low + i) ≤ val b (low + j)) :
    (segment b low n).Sorted (· ≤ ·) := by
  rw [sorted_le_iff_val]
  intro i j hij hj
  rw [length_segment hlen] at hj
  rw [val_segment (by omega : i < n), val_segment hj]
  exact h i j hij hj

theorem segment_sorted_ge {b : List Int} {low n : Nat} (hlen : low + n ≤ b.length)
    (h : ∀ i j, i ≤ j → j < n → val b (low + j) ≤ val b (low + i)) :
    (segment b low n).Sorted (· ≥ ·) := by
  rw [sorted_ge_iff_val]
  intro i j hij hj
  rw [length_segment hlen] at hj
  rw [val_segment (by omega : i < n), val_segment hj]
  exact h i j hij hj

/-- Sequential `bitonicSort` on a power-of-two range inside the slice: it returns,
and the range is ascending or descending as requested. -/
theorem bitonicSort_sorts (m : Nat) (a : List Int) (low : Nat) (dir : Bool)
    (hlen : low + 2 ^ m ≤ a.length) :
    ∃ b, bitonicSort a low (2 ^ m) dir = .ok b ∧ b.length = a.length ∧ b.Perm a ∧
      (∀ p, p < low ∨ low + 2 ^ m ≤ p → b[p]? = a[p]?) ∧
      (dir = true → (segment b low (2 ^ m)).Sorted (· ≤ ·)) ∧
      (dir = false → (segment b low (2 ^ m)).Sorted (· ≥ ·)) := by
  obtain ⟨b, e, l, p, f⟩ := bitonicSort_frame (2 ^ m) a low dir hlen
  refine ⟨b, e, l, p, f, ?_, ?_⟩
  · intro hd
    subst hd
    exact segment_sorted_le (by omega) (ascending_of_blocks b low (2 ^ m)
      (fun c => bitonicSort_threshold c m (2 ^ m) rfl a low true b hlen e))
  · intro hd
    subst hd
    exact segment_sorted_ge (by omega) (descending_of_blocks b low (2 ^ m)
      (fun c => bitonicSort_threshold c m (2 ^ m) rfl a low false b hlen e))

/-! ## The dispatcher -/

/-- With a budget of at least one and enough fuel for its nesting depth, the
dispatcher computes exactly what sequential `bitonicSort` computes. -/
theorem bitonicSortParallel_eq_bitonicSort :
    ∀ (fuel : Nat) (a : List Int) (low cnt : Nat) (dir : Bool) (t : Int),
      1 ≤ t → t < 2 ^ fuel →
      bitonicSortParallel fuel a low cnt dir t = bitonicSort a low cnt dir := by
  intro fuel
  induction fuel with
  | zero =>
    intro a low cnt dir t h1 h2
    simp at h2
    omega
  | succ fuel ih =>
    intro a low cnt dir t h1 h2
    unfold bitonicSortParallel
    by_cases ht : t = 1
    · rw [if_pos ht]
    · rw [if_neg ht]
      have hs : t >>> (1 : Nat) = t / 2 := shiftRight_one t
      have h3 : 1 ≤ t >>> (1 : Nat) := by rw [hs]; omega
      have h4 : t >>> (1 : Nat) < 2 ^ fuel := by
        rw [hs]
        rw [pow_succ] at h2
        omega
      have ih' : ∀ (a : List Int) (low cnt : Nat) (dir : Bool),
          bitonicSortParallel fuel a low cnt dir (t >>> (1 : Nat)) = bitonicSort a low cnt dir :=
        fun a low cnt dir => ih a low cnt dir _ h3 h4
      simp only [ih']
      by_cases hc : 1 < cnt
      · rw [bitonicSort_of_gt a low dir hc]
      · have h0 : cnt / 2 = 0 := by omega
        rw [h0, bitonicSort_of_le a low dir (by omega), bitonicSort_of_le a low true (by omega)]
        simp only [ok_bind]
        rw [bitonicSort_of_le a (low + 0) false (by omega)]
        simp only [ok_bind]
        exact bitonicMerge_of_le a low dir (by omega)

/-! ## Bitonic sequences -/

theorem exists_initial_block (n : Nat) (P : Nat → Prop)
    (h : ∀ i j, i ≤ j → j < n → P j → P i) :
    ∃ l, l ≤ n ∧ ∀ i, i < n → (P i ↔ i < l) := by
  induction n with
  | zero => exact ⟨0, le_refl _, fun i hi => by omega⟩
  | succ n ih =>
    obtain ⟨l, hl, hP⟩ := ih (fun i j hij hj => h i j hij (by omega))
    by_cases hn : P n
    · refine ⟨n + 1, le_refl _, fun i hi => ?_⟩
      constructor
      · intro _
        exact hi
      · intro _
        exact h i n (by omega) (by omega) hn
    · refine ⟨l, by omega, fun i hi => ?_⟩
      by_cases hin : i < n
      · exact hP i hin
      · have : i = n := by omega
        subst this
        constructor
        · intro hp
          exact absurd hp hn
        · intro hlt
          omega

theorem exists_final_block (n : Nat) (P : Nat → Prop)
    (h : ∀ i j, i ≤ j → j < n → P i → P j) :
    ∃ l, l ≤ n ∧ ∀ i, i < n → (P i ↔ n ≤ l + i) := by
  obtain ⟨l, hl, hP⟩ := exists_initial_block n (fun i => ¬ P i)
    (fun i j hij hj hnj hi => hnj (h i j hij hj hi))
  refine ⟨n - l, by omega, fun i hi => ?_⟩
  have := hP i hi
  constructor
  · intro hp
    by_contra hc
    exact (this.mpr (by omega)) hp
  · intro hc
    by_contra hp
    have := this.mp hp
    omega

theorem val_append (u v : List Int) (i : Nat) :
    val (u ++ v) i = if i < u.length then val u i else val v (i - u.length) := by
  unfold val
  by_cases h : i < u.length
  · rw [if_pos h, List.getElem?_append_left h]
  · rw [if_neg h, List.getElem?_append_right (by omega)]

/-- Positions above a threshold in a non-decreasing run followed by a
non-increasing run form an interval. -/
theorem threshold_append (c : Int) (u v : List Int)
    (hu : u.Sorted (· ≤ ·)) (hv : v.Sorted (· ≥ ·)) :
    ∃ s len, s + len ≤ (u ++ v).length ∧
      ∀ i, i < (u ++ v).length → (c < val (u ++ v) i ↔ s ≤ i ∧ i < s + len) := by
  rw [sorted_le_iff_val] at hu
  rw [sorted_ge_iff_val] at hv
  obtain ⟨l1, hl1, h1⟩ := exists_final_block u.length (fun i => c < val u i)
    (fun i j hij hj hi => lt_of_lt_of_le hi (hu i j hij hj))
  obtain ⟨l2, hl2, h2⟩ := exists_initial_block v.length (fun i => c < val v i)
    (fun i j hij hj hj2 => lt_of_lt_of_le hj2 (hv i j hij hj))
  refine ⟨u.length - l1, l1 + l2, by simp; omega, fun i hi => ?_⟩
  simp only [List.length_append] at hi
  rw [val_append]
  by_cases hiu : i < u.length
  · rw [if_pos hiu]
    have := h1 i hiu
    simp only at this
    rw [this]
    omega
  · rw [if_neg hiu]
    have := h2 (i - u.length) (by omega)
    simp only at this
    rw [this]
    omega

/-- Positions above a threshold in a bitonic sequence form a cyclic arc. -/
theorem threshold_of_bitonic (c : Int) (l : List Int) (h : IsBitonic l) :
    ∃ s len, s ≤ l.length ∧ len ≤ l.length ∧
      ∀ i, i < l.length → (c < val l i ↔ inArc s len l.length i) := by
  obtain ⟨u, v, hu, hv, hrot⟩ := h
  obtain ⟨r, hr⟩ := hrot.symm
  obtain ⟨s0, len, hsl, hth⟩ := threshold_append c u v hu hv
  have hlen : l.length = (u ++ v).length := by rw [← hr, List.length_rotate]
  rw [← hlen] at hsl hth
  by_cases hn : l.length = 0
  · exact ⟨0, 0, by omega, by omega, fun i hi => by omega⟩
  have hr0 : r % l.length < l.length := Nat.mod_lt _ (by omega)
  have hval : ∀ i, i < l.length → val l i = val (u ++ v) ((i + r % l.length) % l.length) := by
    intro i hi
    have h1 : l[i]? = (u ++ v)[(i + r) % (u ++ v).length]? := by
      have := List.getElem?_rotate (l := u ++ v) (n := r) (m := i) (by omega)
      rw [hr] at this
      exact this
    unfold val
    rw [h1, ← hlen, Nat.add_mod_mod]
  generalize r % l.length = r0 at hr0 hval
  by_cases hrs : r0 ≤ s0
  · refine ⟨s0 - r0, len, by omega, by omega, fun i hi => ?_⟩
    rw [hval i hi]
    by_cases hw : i + r0 < l.length
    · rw [Nat.mod_eq_of_lt hw, hth _ hw]
      unfold inArc
      omega
    · have : (i + r0) % l.length = i + r0 - l.length := by
        rw [Nat.mod_eq_sub_mod (by omega), Nat.mod_eq_of_lt (by omega)]
      rw [this, hth _ (by omega)]
      unfold inArc
      omega
  · refine ⟨s0 + l.length - r0, len, by omega, by omega, fun i hi => ?_⟩
    rw [hval i hi]
    by_cases hw : i + r0 < l.length
    · rw [Nat.mod_eq_of_lt hw, hth _ hw]
      unfold inArc
      omega
    · have : (i + r0) % l.length = i + r0 - l.length := by
        rw [Nat.mod_eq_sub_mod (by omega), Nat.mod_eq_of_lt (by omega)]
      rw [this, hth _ (by omega)]
      unfold inArc
      omega

theorem mono_of_adjacent (l : List Int)
    (h : ∀ i, i + 1 < l.length → val l i ≤ val l (i + 1)) :
    ∀ i j, i ≤ j → j < l.length → val l i ≤ val l j := by
  intro i j hij
  induction j with
  | zero =>
    intro _
    have : i = 0 := by omega
    subst this
    exact le_refl _
  | succ j ih =>
    intro hj
    rcases Nat.lt_or_eq_of_le hij with hlt | heq
    · exact le_trans (ih (by omega) (by omega)) (h j hj)
    · subst heq
      exact le_refl _

theorem sorted_of_adjacent (l : List Int)
    (h : ∀ (i : Nat) (hi : i + 1 < l.length), l[i] ≤ l[i + 1]) : l.Sorted (· ≤ ·) := by
  rw [sorted_le_iff_val]
  apply mono_of_adjacent
  intro i hi
  rw [val_eq_getElem (by omega : i < l.length), val_eq_getElem hi]
  exact h i hi

theorem adjacent_of_sorted (l : List Int) (h : l.Sorted (· ≤ ·)) :
    ∀ (i : Nat) (hi : i + 1 < l.length), l[i] ≤ l[i + 1] := by
  intro i hi
  rw [sorted_le_iff_val] at h
  have := h i (i + 1) (by omega) hi
  rwa [val_eq_getElem (by omega : i < l.length), val_eq_getElem hi] at this

/-- The whole of `sortParallel` on a slice of power-of-two length: it returns a
sorted permutation of the input. -/
theorem sortParallel_core (m : Nat) (a : List Int) (threadCount : Int) (fuel : Nat)
    (hlen : a.length = 2 ^ m) (ht : 1 ≤ threadCount) (hfuel : threadCount < 2 ^ fuel) :
    ∃ b, sortParallel fuel a (2 ^ m) threadCount = .ok b ∧ b.length = a.length ∧
      b.Perm a ∧ b.Sorted (· ≤ ·) := by
  obtain ⟨b, e, l, p, -, hs, -⟩ := bitonicSort_sorts m a 0 true (by omega)
  refine ⟨b, ?_, l, p, ?_⟩
  · unfold sortParallel
    rw [bitonicSortParallel_eq_bitonicSort fuel a 0 (2 ^ m) true threadCount ht hfuel, e]
  · have := hs rfl
    rwa [← hlen, ← l, segment_zero_length] at this

/-! ## The claims of the specification -/

/-- C1: for every integer sequence of power-of-two length and every thread count
of at least one, `sortParallel` returns and leaves the sequence in ascending
order, `b[i] ≤ b[i+1]` for every `i` with `i + 1` below the length. -/
theorem sortParallel_ascending (m : Nat) (a : List Int) (threadCount : Int) (fuel : Nat)
    (hlen : a.length = 2 ^ m) (ht : 1 ≤ threadCount) (hfuel : threadCount < 2 ^ fuel) :
    ∃ b, sortParallel fuel a (2 ^ m) threadCount = .ok b ∧ b.length = 2 ^ m ∧
      b.Sorted (· ≤ ·) ∧ ∀ (i : Nat) (h : i + 1 < b.length), b[i] ≤ b[i + 1] := by
  obtain ⟨b, e, l, -, hs⟩ := sortParallel_core m a threadCount fuel hlen ht hfuel
  exact ⟨b, e, by omega, hs, adjacent_of_sorted b hs⟩

/-- Concrete instance: `[5, 3, 8, 1]` with two threads gives `[1, 3, 5, 8]`. -/
theorem sortParallel_ascending_witness :
    sortParallel 2 [5, 3, 8, 1] 4 2 = .ok [1, 3, 5, 8] ∧
    (([5, 3, 8, 1] : List Int).length = 2 ^ 2 ∧ (1 : Int) ≤ 2 ∧ (2 : Int) < 2 ^ 2) ∧
    ∃ b, sortParallel 2 [5, 3, 8, 1] (2 ^ 2) 2 = .ok b ∧ b.length = 2 ^ 2 ∧
      b.Sorted (· ≤ ·) ∧ ∀ (i : Nat) (h : i + 1 < b.length), b[i] ≤ b[i + 1] :=
  ⟨by simp [sortParallel, bitonicSortParallel, shiftRight_one, bitonicSort_of_gt,
      bitonicSort_of_le, bitonicMerge_of_gt, bitonicMerge_of_le, mergeLoop, cmpAndSwap, ok_bind],
    ⟨by decide, by decide, by decide⟩,
    sortParallel_ascending 2 [5, 3, 8, 1] 2 2 (by decide) (by decide) (by decide)⟩

/-- C2: for every sequence of power-of-two length and every thread count of at
least one, the output of `sortParallel` is a permutation of the input: the
multiset of elements is the same before and after. -/
theorem sortParallel_perm (m : Nat) (a : List Int) (threadCount : Int) (fuel : Nat)
    (hlen : a.length = 2 ^ m) (ht : 1 ≤ threadCount) (hfuel : threadCount < 2 ^ fuel) :
    ∃ b, sortParallel fuel a (2 ^ m) threadCount = .ok b ∧ b.Perm a ∧
      (b : Multiset Int) = (a : Multiset Int) := by
  obtain ⟨b, e, -, p, -⟩ := sortParallel_core m a threadCount fuel hlen ht hfuel
  exact ⟨b, e, p, Multiset.coe_eq_coe.mpr p⟩

/-- Concrete instance on `[2, 7, 2, 1]` with three threads. -/
theorem sortParallel_perm_witness :
    ([2, 7, 2, 1] : List Int).length = 2 ^ 2 ∧ (1 : Int) ≤ 3 ∧ (3 : Int) < 2 ^ 2 ∧
    ∃ b, sortParallel 2 [2, 7, 2, 1] (2 ^ 2) 3 = .ok b ∧ b.Perm [2, 7, 2, 1] ∧
      (b : Multiset Int) = (([2, 7, 2, 1] : List Int) : Multiset Int) :=
  ⟨by decide, by decide, by decide,
    sortParallel_perm 2 [2, 7, 2, 1] 3 2 (by decide) (by decide) (by decide)⟩

/-- C3: the result of `sortParallel` does not depend on the thread count.  For
every sequence, every `n` up to its length and all thread counts `t1, t2 ≥ 1`,
both calls return the same sequence, the one sequential `bitonicSort a 0 n true`
returns. -/
theorem sortParallel_threadCount_independent (a : List Int) (n : Nat) (t1 t2 : Int)
    (fuel1 fuel2 : Nat) (hn : n ≤ a.length)
    (h1 : 1 ≤ t1) (hf1 : t1 < 2 ^ fuel1) (h2 : 1 ≤ t2) (hf2 : t2 < 2 ^ fuel2) :
    ∃ b, bitonicSort a 0 n true = .ok b ∧ sortParallel fuel1 a n t1 = .ok b ∧
      sortParallel fuel2 a n t2 = .ok b := by
  obtain ⟨b, e, -⟩ := bitonicSort_frame n a 0 true (by omega)
  refine ⟨b, e, ?_, ?_⟩
  · unfold sortParallel
    rw [bitonicSortParallel_eq_bitonicSort fuel1 a 0 n true t1 h1 hf1, e]
  · unfold sortParallel
    rw [bitonicSortParallel_eq_bitonicSort fuel2 a 0 n true t2 h2 hf2, e]

/-- Concrete instance: thread counts 1 and 8 agree on `[4, 1, 3, 2]`. -/
theorem sortParallel_threadCount_independent_witness :
    (4 ≤ ([4, 1, 3, 2] : List Int).length ∧ (1 : Int) ≤ 1 ∧ (1 : Int) < 2 ^ 1 ∧
      (1 : Int) ≤ 8 ∧ (8 : Int) < 2 ^ 4) ∧
    ∃ b, bitonicSort [4, 1, 3, 2] 0 4 true = .ok b ∧ sortParallel 1 [4, 1, 3, 2] 4 1 = .ok b ∧
      sortParallel 4 [4, 1, 3, 2] 4 8 = .ok b :=
  ⟨⟨by decide, by decide, by decide, by decide, by decide⟩,
    sortParallel_threadCount_independent [4, 1, 3, 2] 4 1 8 1 4 (by decide) (by decide)
      (by decide) (by decide) (by decide)⟩

/-- C4: `sortParallel` is idempotent on sorted input.  For every ascending
sequence of power-of-two length and every thread count of at least one the call
returns the input unchanged, position by position. -/
theorem sortParallel_sorted_unchanged (m : Nat) (a : List Int) (threadCount : Int) (fuel : Nat)
    (hlen : a.length = 2 ^ m)
    (hasc : ∀ (i : Nat) (h : i + 1 < a.length), a[i] ≤ a[i + 1])
    (ht : 1 ≤ threadCount) (hfuel : threadCount < 2 ^ fuel) :
    sortParallel fuel a (2 ^ m) threadCount = .ok a := by
  obtain ⟨b, e, -, p, hs⟩ := sortParallel_core m a threadCount fuel hlen ht hfuel
  rw [e, List.eq_of_perm_of_sorted p hs (sorted_of_adjacent a hasc)]

/-- Concrete instance: `[9, 9, 9, 9, 9, 9, 9, 9]` is returned unchanged with 1, 3 and 8 threads. -/
theorem sortParallel_sorted_unchanged_witness :
    (([9, 9, 9, 9, 9, 9, 9, 9] : List Int).length = 2 ^ 3 ∧
      (∀ (i : Nat) (h : i + 1 < ([9, 9, 9, 9, 9, 9, 9, 9] : List Int).length),
        ([9, 9, 9, 9, 9, 9, 9, 9] : List Int)[i] ≤ ([9, 9, 9, 9, 9, 9, 9, 9] : List Int)[i + 1]) ∧
      (1 : Int) ≤ 3 ∧ (3 : Int) < 2 ^ 2) ∧
    sortParallel 1 [9, 9, 9, 9, 9, 9, 9, 9] (2 ^ 3) 1 = .ok [9, 9, 9, 9, 9, 9, 9, 9] ∧
    sortParallel 2 [9, 9, 9, 9, 9, 9, 9, 9] (2 ^ 3) 3 = .ok [9, 9, 9, 9, 9, 9, 9, 9] ∧
    sortParallel 4 [9, 9, 9, 9, 9, 9, 9, 9] (2 ^ 3) 8 = .ok [9, 9, 9, 9, 9, 9, 9, 9] :=
  ⟨⟨by decide, adjacent_of_sorted _ (by decide), by decide, by decide⟩,
    sortParallel_sorted_unchanged 3 [9, 9, 9, 9, 9, 9, 9, 9] 1 1 (by decide)
      (adjacent_of_sorted _ (by decide)) (by decide) (by decide),
    sortParallel_sorted_unchanged 3 [9, 9, 9, 9, 9, 9, 9, 9] 3 2 (by decide)
      (adjacent_of_sorted _ (by decide)) (by decide) (by decide),
    sortParallel_sorted_unchanged 3 [9, 9, 9, 9, 9, 9, 9, 9] 8 4 (by decide)
      (adjacent_of_sorted _ (by decide)) (by decide) (by decide)⟩

/-- C5: `cmpAndSwap a i j dir` for indices `i < j` inside the slice returns a
slice `b` with `b[i] ≤ b[j]` when `dir` is ascending and `b[i] ≥ b[j]` when it is
descending; the two values at `i` and `j` are the old ones, kept or exchanged, and
every other position is unchanged. -/
theorem cmpAndSwap_contract (a : List Int) (i j : Nat) (dir : Bool)
    (hij : i < j) (hj : j < a.length) :
    ∃ b x y, cmpAndSwap a i j dir = .ok b ∧ b.length = a.length ∧
      b[i]? = some x ∧ b[j]? = some y ∧
      (dir = true → x ≤ y) ∧ (dir = false → x ≥ y) ∧
      ((a[i]? = some x ∧ a[j]? = some y) ∨ (a[i]? = some y ∧ a[j]? = some x)) ∧
      ∀ p, p ≠ i → p ≠ j → b[p]? = a[p]? := by
  obtain ⟨b, e, l, -, f, v, w⟩ := cmpAndSwap_spec a i j dir (by omega) hj (by omega)
  refine ⟨b, val b i, val b j, e, l, getElem?_eq_some_val (by omega),
    getElem?_eq_some_val (by omega), ?_, ?_, ?_, f⟩
  · intro hd
    subst hd
    rw [v, w]
    simp [lowOf, highOf]
  · intro hd
    subst hd
    rw [v, w]
    simp [lowOf, highOf]
  · rw [getElem?_eq_some_val (by omega : i < a.length), getElem?_eq_some_val hj, v, w]
    cases dir <;> simp [lowOf, highOf] <;> omega

/-- Concrete instance: exchanging positions 0 and 2 of `[7, 0, 3]` in ascending direction. -/
theorem cmpAndSwap_contract_witness :
    cmpAndSwap [7, 0, 3] 0 2 true = .ok [3, 0, 7] ∧
    (0 < 2 ∧ 2 < ([7, 0, 3] : List Int).length) ∧
    ∃ b x y, cmpAndSwap [7, 0, 3] 0 2 true = .ok b ∧ b.length = ([7, 0, 3] : List Int).length ∧
      b[0]? = some x ∧ b[2]? = some y ∧
      (true = true → x ≤ y) ∧ (true = false → x ≥ y) ∧
      ((([7, 0, 3] : List Int)[0]? = some x ∧ ([7, 0, 3] : List Int)[2]? = some y) ∨
        (([7, 0, 3] : List Int)[0]? = some y ∧ ([7, 0, 3] : List Int)[2]? = some x)) ∧
      ∀ p, p ≠ 0 → p ≠ 2 → b[p]? = ([7, 0, 3] : List Int)[p]? :=
  ⟨by simp [cmpAndSwap], ⟨by decide, by decide⟩, cmpAndSwap_contract [7, 0, 3] 0 2 true (by decide) (by decide)⟩

/-- C6: postcondition of `bitonicMerge`.  For every range `[low, low + cnt)` inside
the slice with `cnt` a power of two whose sub-sequence is bitonic, the call returns
and the sub-sequence is ascending when `dir` is true and descending when it is false. -/
theorem bitonicMerge_sorts_bitonic (m : Nat) (a : List Int) (low : Nat) (dir : Bool)
    (hlen : low + 2 ^ m ≤ a.length) (hbit : IsBitonic (segment a low (2 ^ m))) :
    ∃ b, bitonicMerge a low (2 ^ m) dir = .ok b ∧ b.length = a.length ∧
      (dir = true → (segment b low (2 ^ m)).Sorted (· ≤ ·)) ∧
      (dir = false → (segment b low (2 ^ m)).Sorted (· ≥ ·)) := by
  obtain ⟨b, e, l, -, -⟩ := bitonicMerge_frame (2 ^ m) a low dir hlen
  have hblocks : ∀ c : Int, ∃ len, len ≤ 2 ^ m ∧
      ∀ i, i < 2 ^ m → (c < val b (low + i) ↔ inBlock dir len (2 ^ m) i) := by
    intro c
    obtain ⟨s, len, hs, hl, harc⟩ := threshold_of_bitonic c _ hbit
    rw [length_segment hlen] at hs hl harc
    refine ⟨len, hl, ?_⟩
    refine bitonicMerge_threshold c m (2 ^ m) rfl a low dir s len b hlen hs hl ?_ e
    intro i hi
    rw [← val_segment hi]
    exact harc i hi
  refine ⟨b, e, l, ?_, ?_⟩
  · intro hd
    subst hd
    exact segment_sorted_le (by omega) (ascending_of_blocks b low (2 ^ m) hblocks)
  · intro hd
    subst hd
    exact segment_sorted_ge (by omega) (descending_of_blocks b low (2 ^ m) hblocks)

/-- Concrete instance: the range `[1, 5)` of `[9, 3, 4, 2, 1, 9]` holds the bitonic
sequence `[3, 4, 2, 1]`, a rotation of `[1, 3, 4] ++ [2]`. -/
theorem bitonicMerge_sorts_bitonic_witness :
    bitonicMerge [9, 3, 4, 2, 1, 9] 1 4 false = .ok [9, 4, 3, 2, 1, 9] ∧
    (1 + 2 ^ 2 ≤ ([9, 3, 4, 2, 1, 9] : List Int).length ∧
      IsBitonic (segment [9, 3, 4, 2, 1, 9] 1 (2 ^ 2))) ∧
    ∃ b, bitonicMerge [9, 3, 4, 2, 1, 9] 1 (2 ^ 2) false = .ok b ∧
      b.length = ([9, 3, 4, 2, 1, 9] : List Int).length ∧
      (false = true → (segment b 1 (2 ^ 2)).Sorted (· ≤ ·)) ∧
      (false = false → (segment b 1 (2 ^ 2)).Sorted (· ≥ ·)) :=
  ⟨by simp [bitonicMerge_of_gt, bitonicMerge_of_le, mergeLoop, cmpAndSwap, ok_bind],
    ⟨by decide, ⟨[1, 3, 4], [2], by decide, by decide, ⟨3, by decide⟩⟩⟩,
    bitonicMerge_sorts_bitonic 2 [9, 3, 4, 2, 1, 9] 1 false (by decide)
      ⟨[1, 3, 4], [2], by decide, by decide, ⟨3, by decide⟩⟩⟩

/-- C7: sequential `bitonicSort` sorts in the requested direction.  For every
range `[low, low + cnt)` inside the slice with `cnt` a power of two the call
returns and the sub-sequence is ascending if `dir` is true and descending if it is
false; so `sort a N true` sorts a whole slice of power-of-two length ascending. -/
theorem bitonicSort_sorts_direction (m : Nat) (a : List Int) (low : Nat) (dir : Bool)
    (hlen : low + 2 ^ m ≤ a.length) :
    (∃ b, bitonicSort a low (2 ^ m) dir = .ok b ∧ b.length = a.length ∧
      (dir = true → (segment b low (2 ^ m)).Sorted (· ≤ ·)) ∧
      (dir = false → (segment b low (2 ^ m)).Sorted (· ≥ ·))) ∧
    (a.length = 2 ^ m → ∃ b, sort a (2 ^ m) true = .ok b ∧ b.Sorted (· ≤ ·)) := by
  constructor
  · obtain ⟨b, e, l, -, -, h1, h2⟩ := bitonicSort_sorts m a low dir hlen
    exact ⟨b, e, l, h1, h2⟩
  · intro hlen2
    obtain ⟨b, e, l, -, -, h1, -⟩ := bitonicSort_sorts m a 0 true (by omega)
    refine ⟨b, e, ?_⟩
    have := h1 rfl
    rwa [← hlen2, ← l, segment_zero_length] at this

theorem sort_eight_descending :
    sort [8, 7, 6, 5, 4, 3, 2, 1] 8 true = .ok [1, 2, 3, 4, 5, 6, 7, 8] := by
  obtain ⟨b, e, -, p, hs⟩ :=
    sortParallel_core 3 [8, 7, 6, 5, 4, 3, 2, 1] 1 1 (by decide) (by decide) (by decide)
  have hb : b = [1, 2, 3, 4, 5, 6, 7, 8] :=
    List.eq_of_perm_of_sorted (p.trans (by decide)) hs (by decide)
  rw [← hb, ← e]
  simp [sort, sortParallel, bitonicSortParallel]

/-- Concrete instance: `[8, 7, 6, 5, 4, 3, 2, 1]` sorted ascending gives `[1, 2, 3, 4, 5, 6, 7, 8]`. -/
theorem bitonicSort_sorts_direction_witness :
    sort [8, 7, 6, 5, 4, 3, 2, 1] 8 true = .ok [1, 2, 3, 4, 5, 6, 7, 8] ∧
    0 + 2 ^ 3 ≤ ([8, 7, 6, 5, 4, 3, 2, 1] : List Int).length ∧
    ((∃ b, bitonicSort [8, 7, 6, 5, 4, 3, 2, 1] 0 (2 ^ 3) true = .ok b ∧
        b.length = ([8, 7, 6, 5, 4, 3, 2, 1] : List Int).length ∧
        (true = true → (segment b 0 (2 ^ 3)).Sorted (· ≤ ·)) ∧
        (true = false → (segment b 0 (2 ^ 3)).Sorted (· ≥ ·))) ∧
      (([8, 7, 6, 5, 4, 3, 2, 1] : List Int).length = 2 ^ 3 →
        ∃ b, sort [8, 7, 6, 5, 4, 3, 2, 1] (2 ^ 3) true = .ok b ∧ b.Sorted (· ≤ ·))) :=
  ⟨sort_eight_descending, by decide,
    bitonicSort_sorts_direction 3 [8, 7, 6, 5, 4, 3, 2, 1] 0 true (by decide)⟩

/-- C8: boundary sizes.  For every thread count of at least one, `sortParallel` on
a sequence of length one returns it unchanged, and on a sequence of length two it
produces exactly what the single call `cmpAndSwap a 0 1 true` produces. -/
theorem sortParallel_boundary (a : List Int) (threadCount : Int) (fuel : Nat)
    (ht : 1 ≤ threadCount) (hfuel : threadCount < 2 ^ fuel) :
    (a.length = 1 → sortParallel fuel a 1 threadCount = .ok a) ∧
    (a.length = 2 → sortParallel fuel a 2 threadCount = cmpAndSwap a 0 1 true) := by
  unfold sortParallel
  constructor
  · intro _
    rw [bitonicSortParallel_eq_bitonicSort fuel a 0 1 true threadCount ht hfuel]
    exact bitonicSort_of_le a 0 true (le_refl _)
  · intro h2
    rw [bitonicSortParallel_eq_bitonicSort fuel a 0 2 true threadCount ht hfuel,
      bitonicSort_of_gt a 0 true (by omega)]
    simp only [Nat.reduceDiv, bitonicSort_of_le, le_refl, ok_bind,
      bitonicMerge_of_gt a 0 true (by omega : 1 < 2), mergeLoop, bitonicMerge_of_le]
    cases cmpAndSwap a 0 (0 + 1) true <;> rfl

/-- Concrete instance: `[4]` and `[6, 2]` with five threads. -/
theorem sortParallel_boundary_witness :
    sortParallel 3 [4] 1 5 = .ok [4] ∧ sortParallel 3 [6, 2] 2 5 = .ok [2, 6] ∧
    ((1 : Int) ≤ 5 ∧ (5 : Int) < 2 ^ 3) ∧
    (([6, 2] : List Int).length = 1 → sortParallel 3 [6, 2] 1 5 = .ok [6, 2]) ∧
    (([6, 2] : List Int).length = 2 → sortParallel 3 [6, 2] 2 5 = cmpAndSwap [6, 2] 0 1 true) :=
  ⟨(sortParallel_boundary [4] 5 3 (by decide) (by decide)).1 rfl,
    by rw [(sortParallel_boundary [6, 2] 5 3 (by decide) (by decide)).2 rfl]; simp [cmpAndSwap],
    ⟨by decide, by decide⟩,
    sortParallel_boundary [6, 2] 5 3 (by decide) (by decide)⟩

/-- C10: disjoint-range frame.  For every range `[low, low + cnt)` inside the
slice, either direction and every budget of at least one, `bitonicMerge`,
`bitonicSort` and `bitonicSortParallel` return and leave every index outside the
range unchanged; so the two halves `[low, low + k)` and `[low + k, low + 2k)`,
`k = cnt / 2`, forked by the dispatcher change disjoint sets of indices. -/
theorem frame_outside_range (a : List Int) (low cnt : Nat) (dir : Bool) (budget : Int)
    (fuel : Nat) (hlen : low + cnt ≤ a.length) (hb : 1 ≤ budget) (hfuel : budget < 2 ^ fuel) :
    (∃ b, bitonicMerge a low cnt dir = .ok b ∧
      ∀ p, p < low ∨ low + cnt ≤ p → b[p]? = a[p]?) ∧
    (∃ b, bitonicSort a low cnt dir = .ok b ∧
      ∀ p, p < low ∨ low + cnt ≤ p → b[p]? = a[p]?) ∧
    (∃ b, bitonicSortParallel fuel a low cnt dir budget = .ok b ∧
      ∀ p, p < low ∨ low + cnt ≤ p → b[p]? = a[p]?) ∧
    (budget ≠ 1 → ∃ bl br,
      bitonicSortParallel fuel a low (cnt / 2) true (budget >>> (1 : Nat)) = .ok bl ∧
      bitonicSortParallel fuel a (low + cnt / 2) (cnt / 2) false (budget >>> (1 : Nat)) = .ok br ∧
      (∀ p, p < low ∨ low + cnt / 2 ≤ p → bl[p]? = a[p]?) ∧
      (∀ p, p < low + cnt / 2 ∨ low + cnt / 2 + cnt / 2 ≤ p → br[p]? = a[p]?) ∧
      ∀ p : Nat, bl[p]? = a[p]? ∨ br[p]? = a[p]?) := by
  obtain ⟨b1, e1, -, -, f1⟩ := bitonicMerge_frame cnt a low dir hlen
  obtain ⟨b2, e2, -, -, f2⟩ := bitonicSort_frame cnt a low dir hlen
  refine ⟨⟨b1, e1, f1⟩, ⟨b2, e2, f2⟩, ⟨b2, ?_, f2⟩, ?_⟩
  · rw [bitonicSortParallel_eq_bitonicSort fuel a low cnt dir budget hb hfuel, e2]
  · intro hne
    have hs : budget >>> (1 : Nat) = budget / 2 := shiftRight_one budget
    have h3 : 1 ≤ budget >>> (1 : Nat) := by rw [hs]; omega
    have h4 : budget >>> (1 : Nat) < 2 ^ fuel := by rw [hs]; omega
    obtain ⟨bl, el, -, -, fl⟩ := bitonicSort_frame (cnt / 2) a low true (by omega)
    obtain ⟨br, er, -, -, fr⟩ := bitonicSort_frame (cnt / 2) a (low + cnt / 2) false (by omega)
    refine ⟨bl, br, ?_, ?_, fl, fr, ?_⟩
    · rw [bitonicSortParallel_eq_bitonicSort fuel a low (cnt / 2) true _ h3 h4, el]
    · rw [bitonicSortParallel_eq_bitonicSort fuel a (low + cnt / 2) (cnt / 2) false _ h3 h4, er]
    · intro p
      by_cases hp : p < low + cnt / 2
      · exact Or.inr (fr p (Or.inl hp))
      · exact Or.inl (fl p (Or.inr (by omega)))

/-- Concrete instance: the range `[1, 4)` of `[5, 4, 3, 2, 1]`, a count that is not a
power of two, with budget three. -/
theorem frame_outside_range_witness :
    (1 + 3 ≤ ([5, 4, 3, 2, 1] : List Int).length ∧ (1 : Int) ≤ 3 ∧ (3 : Int) < 2 ^ 2) ∧
    ((∃ b, bitonicMerge [5, 4, 3, 2, 1] 1 3 true = .ok b ∧
      ∀ p, p < 1 ∨ 1 + 3 ≤ p → b[p]? = ([5, 4, 3, 2, 1] : List Int)[p]?) ∧
    (∃ b, bitonicSort [5, 4, 3, 2, 1] 1 3 true = .ok b ∧
      ∀ p, p < 1 ∨ 1 + 3 ≤ p → b[p]? = ([5, 4, 3, 2, 1] : List Int)[p]?) ∧
    (∃ b, bitonicSortParallel 2 [5, 4, 3, 2, 1] 1 3 true 3 = .ok b ∧
      ∀ p, p < 1 ∨ 1 + 3 ≤ p → b[p]? = ([5, 4, 3, 2, 1] : List Int)[p]?) ∧
    ((3 : Int) ≠ 1 → ∃ bl br,
      bitonicSortParallel 2 [5, 4, 3, 2, 1] 1 (3 / 2) true ((3 : Int) >>> (1 : Nat)) = .ok bl ∧
      bitonicSortParallel 2 [5, 4, 3, 2, 1] (1 + 3 / 2) (3 / 2) false ((3 : Int) >>> (1 : Nat))
        = .ok br ∧
      (∀ p, p < 1 ∨ 1 + 3 / 2 ≤ p → bl[p]? = ([5, 4, 3, 2, 1] : List Int)[p]?) ∧
      (∀ p, p < 1 + 3 / 2 ∨ 1 + 3 / 2 + 3 / 2 ≤ p → br[p]? = ([5, 4, 3, 2, 1] : List Int)[p]?) ∧
      ∀ p : Nat, bl[p]? = ([5, 4, 3, 2, 1] : List Int)[p]? ∨ br[p]? = ([5, 4, 3, 2, 1] : List Int)[p]?)) :=
  ⟨⟨by decide, by decide, by decide⟩,
    frame_outside_range [5, 4, 3, 2, 1] 1 3 true 3 2 (by decide) (by decide) (by decide)⟩

/-! ## The recorded calls are the calls of the run -/

theorem mergePairs_of_le {cnt : Nat} (low : Nat) (dir : Bool) (h : cnt ≤ 1) :
    mergePairs low cnt dir = [] := by
  rw [mergePairs, if_neg (by omega)]

theorem mergePairs_of_gt {cnt : Nat} (low : Nat) (dir : Bool) (h : 1 < cnt) :
    mergePairs low cnt dir =
      loopPairs low (cnt / 2) (cnt / 2) dir ++
        (mergePairs low (cnt / 2) dir ++ mergePairs (low + cnt / 2) (cnt / 2) dir) := by
  rw [mergePairs, if_pos h]

theorem sortPairs_of_le {cnt : Nat} (low : Nat) (dir : Bool) (h : cnt ≤ 1) :
    sortPairs low cnt dir = [] := by
  rw [sortPairs, if_neg (by omega)]

theorem sortPairs_of_gt {cnt : Nat} (low : Nat) (dir : Bool) (h : 1 < cnt) :
    sortPairs low cnt dir =
      sortPairs low (cnt / 2) true ++
        (sortPairs (low + cnt / 2) (cnt / 2) false ++ mergePairs low cnt dir) := by
  rw [sortPairs, if_pos h]

theorem bind_assoc_run (x : Run) (f g : List Int → Run) :
    (x >>= f >>= g) = (x >>= fun a => f a >>= g) := by
  cases x <;> rfl

theorem runPairs_append (ps qs : List SwapCall) :
    ∀ a : List Int, runPairs a (ps ++ qs) = (runPairs a ps >>= fun a1 => runPairs a1 qs) := by
  induction ps with
  | nil =>
    intro a
    rfl
  | cons p ps ih =>
    intro a
    simp only [List.cons_append, runPairs]
    cases cmpAndSwap a p.i p.j p.dir with
    | error e => rfl
    | ok a1 => exact ih a1

theorem mergeLoop_eq_runPairs (k : Nat) (dir : Bool) :
    ∀ (rem : Nat) (a : List Int) (i : Nat),
      mergeLoop a i rem k dir = runPairs a (loopPairs i rem k dir) := by
  intro rem
  induction rem with
  | zero =>
    intro a i
    rfl
  | succ rem ih =>
    intro a i
    simp only [mergeLoop, loopPairs, runPairs]
    cases cmpAndSwap a i (i + k) dir with
    | error e => rfl
    | ok a1 => exact ih a1 (i + 1)

/-- `bitonicMerge` performs exactly the calls of `mergePairs`, in that order. -/
theorem bitonicMerge_eq_runPairs :
    ∀ (cnt : Nat) (a : List Int) (low : Nat) (dir : Bool),
      bitonicMerge a low cnt dir = runPairs a (mergePairs low cnt dir) := by
  intro cnt
  induction cnt using Nat.strong_induction_on with
  | _ cnt ih =>
    intro a low dir
    by_cases h : 1 < cnt
    · rw [bitonicMerge_of_gt a low dir h, mergePairs_of_gt low dir h, runPairs_append,
        mergeLoop_eq_runPairs]
      congr 1
      funext a1
      rw [runPairs_append, ih (cnt / 2) (by omega) a1 low dir]
      congr 1
      funext a2
      exact ih (cnt / 2) (by omega) a2 (low + cnt / 2) dir
    · rw [bitonicMerge_of_le a low dir (by omega), mergePairs_of_le low dir (by omega)]
      rfl

/-- `bitonicSort` performs exactly the calls of `sortPairs`, in that order. -/
theorem bitonicSort_eq_runPairs :
    ∀ (cnt : Nat) (a : List Int) (low : Nat) (dir : Bool),
      bitonicSort a low cnt dir = runPairs a (sortPairs low cnt dir) := by
  intro cnt
  induction cnt using Nat.strong_induction_on with
  | _ cnt ih =>
    intro a low dir
    by_cases h : 1 < cnt
    · rw [bitonicSort_of_gt a low dir h, sortPairs_of_gt low dir h, runPairs_append,
        ih (cnt / 2) (by omega) a low true]
      congr 1
      funext a1
      rw [runPairs_append, ih (cnt / 2) (by omega) a1 (low + cnt / 2) false]
      congr 1
      funext a2
      exact bitonicMerge_eq_runPairs cnt a2 low dir
    · rw [bitonicSort_of_le a low dir (by omega), sortPairs_of_le low dir (by omega)]
      rfl

/-- The dispatcher performs exactly the calls of `parallelPairs`, in that order. -/
theorem bitonicSortParallel_eq_runPairs :
    ∀ (fuel : Nat) (a : List Int) (low cnt : Nat) (dir : Bool) (t : Int) (ps : List SwapCall),
      parallelPairs fuel low cnt dir t = some ps →
      bitonicSortParallel fuel a low cnt dir t = runPairs a ps := by
  intro fuel
  induction fuel with
  | zero =>
    intro a low cnt dir t ps h
    simp [parallelPairs] at h
  | succ fuel ih =>
    intro a low cnt dir t ps h
    unfold parallelPairs at h
    unfold bitonicSortParallel
    by_cases ht : t = 1
    · rw [if_pos ht] at h ⊢
      cases h
      exact bitonicSort_eq_runPairs cnt a low dir
    · rw [if_neg ht] at h ⊢
      cases hl : parallelPairs fuel low (cnt / 2) true (t >>> (1 : Nat)) with
      | none => simp [hl] at h
      | some l =>
        cases hr : parallelPairs fuel (low + cnt / 2) (cnt / 2) false (t >>> (1 : Nat)) with
        | none => simp [hl, hr] at h
        | some r =>
          simp only [hl, hr, Option.some.injEq] at h
          subst h
          rw [runPairs_append, ← ih a low (cnt / 2) true _ l hl]
          show (bitonicSortParallel fuel a low (cnt / 2) true (t >>> (1 : Nat)) >>= fun a1 =>
            bitonicSortParallel fuel a1 (low + cnt / 2) (cnt / 2) false (t >>> (1 : Nat)) >>=
              fun a2 => bitonicMerge a2 low cnt dir) = _
          congr 1
          funext a1
          rw [runPairs_append, ← ih a1 (low + cnt / 2) (cnt / 2) false _ r hr]
          congr 1
          funext a2
          exact bitonicMerge_eq_runPairs cnt a2 low dir

/-! ## Where the recorded calls lie -/

theorem mem_loopPairs (k : Nat) (dir : Bool) :
    ∀ (rem i : Nat) (p : SwapCall), p ∈ loopPairs i rem k dir →
      i ≤ p.i ∧ p.i < i + rem ∧ p.j = p.i + k ∧ p.dir = dir := by
  intro rem
  induction rem with
  | zero =>
    intro i p hp
    simp [loopPairs] at hp
  | succ rem ih =>
    intro i p hp
    simp only [loopPairs, List.mem_cons] at hp
    rcases hp with rfl | hp
    · exact ⟨le_refl _, by show i < i + (rem + 1); omega, rfl, rfl⟩
    · obtain ⟨h1, h2, h3, h4⟩ := ih (i + 1) p hp
      exact ⟨by omega, by omega, h3, h4⟩

theorem length_loopPairs (k : Nat) (dir : Bool) :
    ∀ (rem i : Nat), (loopPairs i rem k dir).length = rem := by
  intro rem
  induction rem with
  | zero =>
    intro i
    rfl
  | succ rem ih =>
    intro i
    simp [loopPairs, ih]

/-- Every call of `bitonicMerge` on `(low, cnt)` has `low ≤ i < j < low + 2 * (cnt / 2)`. -/
theorem mem_mergePairs :
    ∀ (cnt low : Nat) (dir : Bool) (p : SwapCall), p ∈ mergePairs low cnt dir →
      low ≤ p.i ∧ p.i < p.j ∧ p.j < low + 2 * (cnt / 2) := by
  intro cnt
  induction cnt using Nat.strong_induction_on with
  | _ cnt ih =>
    intro low dir p hp
    by_cases h : 1 < cnt
    · rw [mergePairs_of_gt low dir h] at hp
      simp only [List.mem_append] at hp
      rcases hp with hp | hp | hp
      · obtain ⟨h1, h2, h3, -⟩ := mem_loopPairs _ _ _ _ _ hp
        exact ⟨h1, by omega, by omega⟩
      · obtain ⟨h1, h2, h3⟩ := ih (cnt / 2) (by omega) low dir p hp
        exact ⟨h1, h2, by omega⟩
      · obtain ⟨h1, h2, h3⟩ := ih (cnt / 2) (by omega) (low + cnt / 2) dir p hp
        exact ⟨by omega, h2, by omega⟩
    · rw [mergePairs_of_le low dir (by omega)] at hp
      simp at hp

/-- Every call of `bitonicSort` on `(low, cnt)` has `low ≤ i < j < low + 2 * (cnt / 2)`. -/
theorem mem_sortPairs :
    ∀ (cnt low : Nat) (dir : Bool) (p : SwapCall), p ∈ sortPairs low cnt dir →
      low ≤ p.i ∧ p.i < p.j ∧ p.j < low + 2 * (cnt / 2) := by
  intro cnt
  induction cnt using Nat.strong_induction_on with
  | _ cnt ih =>
    intro low dir p hp
    by_cases h : 1 < cnt
    · rw [sortPairs_of_gt low dir h] at hp
      simp only [List.mem_append] at hp
      rcases hp with hp | hp | hp
      · obtain ⟨h1, h2, h3⟩ := ih (cnt / 2) (by omega) low true p hp
        exact ⟨h1, h2, by omega⟩
      · obtain ⟨h1, h2, h3⟩ := ih (cnt / 2) (by omega) (low + cnt / 2) false p hp
        exact ⟨by omega, h2, by omega⟩
      · exact mem_mergePairs cnt low dir p hp
    · rw [sortPairs_of_le low dir (by omega)] at hp
      simp at hp

/-- With a budget of at least one and enough fuel the dispatcher makes the calls of
sequential `bitonicSort`. -/
theorem parallelPairs_eq_sortPairs :
    ∀ (fuel : Nat) (low cnt : Nat) (dir : Bool) (t : Int), 1 ≤ t → t < 2 ^ fuel →
      parallelPairs fuel low cnt dir t = some (sortPairs low cnt dir) := by
  intro fuel
  induction fuel with
  | zero =>
    intro low cnt dir t h1 h2
    simp at h2
    omega
  | succ fuel ih =>
    intro low cnt dir t h1 h2
    unfold parallelPairs
    by_cases ht : t = 1
    · rw [if_pos ht]
    · rw [if_neg ht]
      have hs : t >>> (1 : Nat) = t / 2 := shiftRight_one t
      have h3 : 1 ≤ t >>> (1 : Nat) := by rw [hs]; omega
      have h4 : t >>> (1 : Nat) < 2 ^ fuel := by
        rw [hs]
        rw [pow_succ] at h2
        omega
      rw [ih low (cnt / 2) true _ h3 h4, ih (low + cnt / 2) (cnt / 2) false _ h3 h4]
      by_cases hc : 1 < cnt
      · rw [sortPairs_of_gt low dir hc]
      · have h0 : cnt / 2 = 0 := by omega
        rw [h0, sortPairs_of_le low dir (by omega), sortPairs_of_le low true (by omega),
          sortPairs_of_le (low + 0) false (by omega), mergePairs_of_le low dir (by omega)]
        rfl

theorem cmpAndSwap_frame (a b : List Int) (i j : Nat) (dir : Bool)
    (h : cmpAndSwap a i j dir = .ok b) (q : Nat) (hi : q ≠ i) (hj : q ≠ j) :
    b[q]? = a[q]? := by
  unfold cmpAndSwap at h
  split at h
  · split at h
    · cases h
      rw [List.getElem?_set_ne (Ne.symm hj), List.getElem?_set_ne (Ne.symm hi)]
    · cases h
      rfl
  · cases h

/-- An index that no recorded call names keeps its element. -/
theorem runPairs_frame (ps : List SwapCall) :
    ∀ (a b : List Int), runPairs a ps = .ok b →
      ∀ q : Nat, (∀ p ∈ ps, p.i ≠ q ∧ p.j ≠ q) → b[q]? = a[q]? := by
  induction ps with
  | nil =>
    intro a b h q _
    cases h
    rfl
  | cons p ps ih =>
    intro a b h q hq
    simp only [runPairs] at h
    cases h1 : cmpAndSwap a p.i p.j p.dir with
    | error e =>
      rw [h1] at h
      cases h
    | ok a1 =>
      rw [h1] at h
      have hp := hq p (List.mem_cons_self _ _)
      rw [ih a1 b h q (fun p' hp' => hq p' (List.mem_cons_of_mem _ hp')),
        cmpAndSwap_frame a a1 p.i p.j p.dir h1 q (Ne.symm hp.1) (Ne.symm hp.2)]

/-! ## The tree of dispatcher calls -/

/-- With a budget `t ≥ 1` and enough fuel the tree of dispatcher calls exists; it
obeys the budget discipline, every budget in it is at least one, its depth is
`⌊log₂ t⌋` and it has `2 ^ depth` delegating calls. -/
theorem dispatchTree_spec :
    ∀ (fuel : Nat) (low cnt : Nat) (dir : Bool) (t : Int), 1 ≤ t → t < 2 ^ fuel →
      ∃ tree, dispatchTree fuel low cnt dir t = some tree ∧ tree.budget = t ∧
        tree.count = cnt ∧ tree.WellBudgeted ∧ (∀ x ∈ tree.budgets, 1 ≤ x) ∧
        tree.depth = Nat.log 2 t.toNat ∧ tree.leaves = 2 ^ tree.depth := by
  intro fuel
  induction fuel with
  | zero =>
    intro low cnt dir t h1 h2
    simp at h2
    omega
  | succ fuel ih =>
    intro low cnt dir t h1 h2
    unfold dispatchTree
    by_cases ht : t = 1
    · rw [if_pos ht]
      refine ⟨_, rfl, rfl, rfl, ht, ?_, ?_, ?_⟩
      · intro x hx
        simp only [CallTree.budgets, List.mem_singleton] at hx
        omega
      · subst ht
        simp [CallTree.depth]
      · simp [CallTree.leaves, CallTree.depth]
    · rw [if_neg ht]
      have hs : t >>> (1 : Nat) = t / 2 := shiftRight_one t
      have h3 : 1 ≤ t >>> (1 : Nat) := by rw [hs]; omega
      have h4 : t >>> (1 : Nat) < 2 ^ fuel := by
        rw [hs]
        rw [pow_succ] at h2
        omega
      obtain ⟨l, el, bl, cl, wl, gl, dl, nl⟩ := ih low (cnt / 2) true _ h3 h4
      obtain ⟨r, er, br, cr, wr, gr, dr, nr⟩ := ih (low + cnt / 2) (cnt / 2) false _ h3 h4
      rw [el, er]
      have hlog : Nat.log 2 t.toNat = Nat.log 2 (t >>> (1 : Nat)).toNat + 1 := by
        rw [Nat.log_of_one_lt_of_le (by omega) (by omega : 2 ≤ t.toNat), hs]
        congr 2
        omega
      have hdepth : (CallTree.fork low cnt dir t l r).depth = Nat.log 2 t.toNat := by
        simp only [CallTree.depth, dl, dr, max_self, hlog]
        omega
      refine ⟨_, rfl, rfl, rfl, ?_, ?_, hdepth, ?_⟩
      · exact ⟨ht, bl, br, by rw [bl, hs]; omega, by rw [br, hs]; omega, cl, cr, wl, wr⟩
      · intro x hx
        simp only [CallTree.budgets, List.mem_cons, List.mem_append] at hx
        rcases hx with rfl | hx | hx
        · exact h1
        · exact gl x hx
        · exact gr x hx
      · rw [hdepth, hlog]
        simp only [CallTree.leaves, nl, nr, dl, dr]
        rw [pow_succ]
        omega

/-- With a budget below one no amount of fuel completes the dispatcher: the first
forked call is reached with a budget that is again below one. -/
theorem bitonicSortParallel_outOfFuel :
    ∀ (fuel : Nat) (a : List Int) (low cnt : Nat) (dir : Bool) (t : Int), t ≤ 0 →
      bitonicSortParallel fuel a low cnt dir t = .error Err.outOfFuel ∧
      dispatchTree fuel low cnt dir t = none := by
  intro fuel
  induction fuel with
  | zero =>
    intro a low cnt dir t _
    exact ⟨rfl, rfl⟩
  | succ fuel ih =>
    intro a low cnt dir t ht
    have hs : t >>> (1 : Nat) = t / 2 := shiftRight_one t
    have h3 : t >>> (1 : Nat) ≤ 0 := by rw [hs]; omega
    obtain ⟨e1, e2⟩ := ih a low (cnt / 2) true _ h3
    constructor
    · unfold bitonicSortParallel
      rw [if_neg (by omega)]
      simp only [e1]
      rfl
    · unfold dispatchTree
      rw [if_neg (by omega), e2]

/-! ## Claims about the budget and the calls -/

/-- The depth bound by the count fails: the call on a range of count 1 with budget 4
forks, and its children fork again on ranges of count 0, so the nesting depth of
forking calls is 2 while `log₂ 1 = 0`. -/
theorem oversized_budget_counterexample :
    ((1 : Nat) : Int) < 4 ∧
    (dispatchTree 3 0 1 true 4).map CallTree.forkCounts = some [1, 0, 0] ∧
    (dispatchTree 3 0 1 true 4).map CallTree.depth = some 2 ∧
    ¬ (2 ≤ Nat.log 2 1) := by
  refine ⟨by decide, by decide, by decide, ?_⟩
  rw [Nat.log_of_lt (by omega)]
  omega

/-- C11, amended: for every dispatcher call with `availableThreads > cnt` the
nesting depth of forking dispatcher calls is `⌊log₂ availableThreads⌋`, which is at
least `⌊log₂ cnt⌋`: the budget alone bounds the depth.  The excess budget does no
work: the `cmpAndSwap` calls made are those of sequential `bitonicSort`, and on a
range of count at most one none is made and the sequence is returned unchanged. -/
theorem oversized_budget (a : List Int) (low cnt : Nat) (dir : Bool) (t : Int) (fuel : Nat)
    (hb : (cnt : Int) < t) (hfuel : t < 2 ^ fuel) :
    ∃ tree, dispatchTree fuel low cnt dir t = some tree ∧
      tree.depth = Nat.log 2 t.toNat ∧ Nat.log 2 cnt ≤ tree.depth ∧
      parallelPairs fuel low cnt dir t = some (sortPairs low cnt dir) ∧
      (cnt ≤ 1 → parallelPairs fuel low cnt dir t = some [] ∧
        bitonicSortParallel fuel a low cnt dir t = .ok a) := by
  have h1 : 1 ≤ t := by omega
  obtain ⟨tree, e, -, -, -, -, d, -⟩ := dispatchTree_spec fuel low cnt dir t h1 hfuel
  have hp := parallelPairs_eq_sortPairs fuel low cnt dir t h1 hfuel
  refine ⟨tree, e, d, ?_, hp, ?_⟩
  · rw [d]
    exact Nat.log_mono_right (by omega)
  · intro hc
    rw [hp, sortPairs_of_le low dir hc,
      bitonicSortParallel_eq_bitonicSort fuel a low cnt dir t h1 hfuel,
      bitonicSort_of_le a low dir hc]
    exact ⟨rfl, rfl⟩

/-- Concrete instance: the range of count 1 at offset 2 of `[3, 1, 2]` with budget 4. -/
theorem oversized_budget_witness :
    (((1 : Nat) : Int) < 4 ∧ (4 : Int) < 2 ^ 3) ∧
    ∃ tree, dispatchTree 3 2 1 true 4 = some tree ∧
      tree.depth = Nat.log 2 (4 : Int).toNat ∧ Nat.log 2 1 ≤ tree.depth ∧
      parallelPairs 3 2 1 true 4 = some (sortPairs 2 1 true) ∧
      (1 ≤ 1 → parallelPairs 3 2 1 true 4 = some [] ∧
        bitonicSortParallel 3 [3, 1, 2] 2 1 true 4 = .ok [3, 1, 2]) :=
  ⟨⟨by decide, by decide⟩, oversized_budget [3, 1, 2] 2 1 true 4 3 (by decide) (by decide)⟩

/-- C12: thread budget well-formedness and termination.  For every thread count
of at least one, power of two or not, every dispatcher call reachable from
`sortParallel a n threadCount` receives a budget of at least one, each fork passes
`availableThreads >> 1`, the floor of half and a smaller budget, to both children,
every delegating call holds budget exactly one, and the run returns. -/
theorem budget_well_formed (a : List Int) (n : Nat) (threadCount : Int) (fuel : Nat)
    (hn : n ≤ a.length) (ht : 1 ≤ threadCount) (hfuel : threadCount < 2 ^ fuel) :
    ∃ tree b, dispatchTree fuel 0 n true threadCount = some tree ∧
      (∀ x ∈ tree.budgets, 1 ≤ x) ∧ tree.WellBudgeted ∧
      (∀ x : Int, x >>> (1 : Nat) = x / 2) ∧
      sortParallel fuel a n threadCount = .ok b := by
  obtain ⟨tree, e, -, -, w, g, -, -⟩ := dispatchTree_spec fuel 0 n true threadCount ht hfuel
  obtain ⟨b, eb, -⟩ := bitonicSort_frame n a 0 true (by omega)
  refine ⟨tree, b, e, g, w, shiftRight_one, ?_⟩
  unfold sortParallel
  rw [bitonicSortParallel_eq_bitonicSort fuel a 0 n true threadCount ht hfuel, eb]

/-- Concrete instance: six threads on `[4, 3, 2, 1]`; the budgets are 6, 3, 3, 1, 1, 1, 1. -/
theorem budget_well_formed_witness :
    (dispatchTree 3 0 4 true 6).map CallTree.budgets = some [6, 3, 1, 1, 3, 1, 1] ∧
    (4 ≤ ([4, 3, 2, 1] : List Int).length ∧ (1 : Int) ≤ 6 ∧ (6 : Int) < 2 ^ 3) ∧
    ∃ tree b, dispatchTree 3 0 4 true 6 = some tree ∧
      (∀ x ∈ tree.budgets, 1 ≤ x) ∧ tree.WellBudgeted ∧
      (∀ x : Int, x >>> (1 : Nat) = x / 2) ∧
      sortParallel 3 [4, 3, 2, 1] 4 6 = .ok b :=
  ⟨by decide, ⟨by decide, by decide, by decide⟩,
    budget_well_formed [4, 3, 2, 1] 4 6 3 (by decide) (by decide) (by decide)⟩

/-- C13: fan-out is bounded by the thread budget.  For every thread count of at
least one the nesting depth of forking dispatcher calls under `sortParallel` is
`⌊log₂ threadCount⌋`, and the number of calls delegating to sequential
`bitonicSort` is `2 ^ ⌊log₂ threadCount⌋`, which is at most `threadCount`. -/
theorem fanout_bounded (n : Nat) (threadCount : Int) (fuel : Nat)
    (ht : 1 ≤ threadCount) (hfuel : threadCount < 2 ^ fuel) :
    ∃ tree, dispatchTree fuel 0 n true threadCount = some tree ∧
      tree.depth = Nat.log 2 threadCount.toNat ∧
      tree.leaves = 2 ^ Nat.log 2 threadCount.toNat ∧
      (tree.leaves : Int) ≤ threadCount := by
  obtain ⟨tree, e, -, -, -, -, d, l⟩ := dispatchTree_spec fuel 0 n true threadCount ht hfuel
  refine ⟨tree, e, d, by rw [l, d], ?_⟩
  have h := Nat.pow_log_le_self 2 (by omega : threadCount.toNat ≠ 0)
  rw [l, d]
  have : ((2 ^ Nat.log 2 threadCount.toNat : Nat) : Int) ≤ (threadCount.toNat : Int) := by
    exact_mod_cast h
  rw [Int.toNat_of_nonneg (by omega)] at this
  exact this

/-- Concrete instance: five threads give depth 2 and 4 delegating calls. -/
theorem fanout_bounded_witness :
    (dispatchTree 3 0 8 true 5).map CallTree.depth = some 2 ∧
    (dispatchTree 3 0 8 true 5).map CallTree.leaves = some 4 ∧
    ((1 : Int) ≤ 5 ∧ (5 : Int) < 2 ^ 3) ∧
    ∃ tree, dispatchTree 3 0 8 true 5 = some tree ∧
      tree.depth = Nat.log 2 (5 : Int).toNat ∧
      tree.leaves = 2 ^ Nat.log 2 (5 : Int).toNat ∧
      (tree.leaves : Int) ≤ 5 :=
  ⟨by decide, by decide, ⟨by decide, by decide⟩,
    fanout_bounded 8 5 3 (by decide) (by decide)⟩

theorem segment_append (a : List Int) (low k k' : Nat) :
    segment a low (k + k') = segment a low k ++ segment a (low + k) k' := by
  unfold segment
  rw [List.take_add, List.drop_drop]

theorem segment_congr {a b : List Int} {low cnt : Nat}
    (h : ∀ p, low ≤ p → p < low + cnt → b[p]? = a[p]?) :
    segment b low cnt = segment a low cnt := by
  apply List.ext_getElem?
  intro i
  unfold segment
  rw [List.getElem?_take, List.getElem?_take]
  by_cases hi : i < cnt
  · rw [if_pos hi, if_pos hi, List.getElem?_drop, List.getElem?_drop]
    exact h (low + i) (by omega) (by omega)
  · rw [if_neg hi, if_neg hi]

/-- C14: the halves form a bitonic sequence.  For every range `[low, low + cnt)`
inside the slice with `cnt` a power of two above one, after
`bitonicSort(a, low, cnt/2, true)` followed by `bitonicSort(a, low + cnt/2, cnt/2, false)`
the sub-sequence is non-decreasing on its left half and non-increasing on its
right half, so it is bitonic as `bitonicMerge` requires. -/
theorem halves_form_bitonic (m : Nat) (a : List Int) (low : Nat)
    (hm : 1 < 2 ^ m) (hlen : low + 2 ^ m ≤ a.length) :
    ∃ a1 a2, bitonicSort a low (2 ^ m / 2) true = .ok a1 ∧
      bitonicSort a1 (low + 2 ^ m / 2) (2 ^ m / 2) false = .ok a2 ∧
      (segment a2 low (2 ^ m / 2)).Sorted (· ≤ ·) ∧
      (segment a2 (low + 2 ^ m / 2) (2 ^ m / 2)).Sorted (· ≥ ·) ∧
      IsBitonic (segment a2 low (2 ^ m)) := by
  cases m with
  | zero => simp at hm
  | succ m =>
    have hk : 2 ^ (m + 1) / 2 = 2 ^ m := by rw [pow_succ]; omega
    have h2 : 2 ^ (m + 1) = 2 ^ m + 2 ^ m := by rw [pow_succ]; omega
    rw [hk]
    obtain ⟨a1, e1, l1, -, -, s1, -⟩ := bitonicSort_sorts m a low true (by omega)
    obtain ⟨a2, e2, l2, -, f2, -, s2⟩ := bitonicSort_sorts m a1 (low + 2 ^ m) false (by omega)
    have hleft : (segment a2 low (2 ^ m)).Sorted (· ≤ ·) := by
      rw [segment_congr (fun p _ hp => f2 p (Or.inl hp))]
      exact s1 rfl
    refine ⟨a1, a2, e1, e2, hleft, s2 rfl, ?_⟩
    rw [h2, segment_append]
    exact ⟨_, _, hleft, s2 rfl, ⟨0, by simp⟩⟩

/-- Concrete instance: the range `[1, 5)` of `[0, 4, 2, 1, 3, 0]` becomes `[2, 4, 3, 1]`. -/
theorem halves_form_bitonic_witness :
    bitonicSort [0, 4, 2, 1, 3, 0] 1 2 true = .ok [0, 2, 4, 1, 3, 0] ∧
    bitonicSort [0, 2, 4, 1, 3, 0] 3 2 false = .ok [0, 2, 4, 3, 1, 0] ∧
    (1 < 2 ^ 2 ∧ 1 + 2 ^ 2 ≤ ([0, 4, 2, 1, 3, 0] : List Int).length) ∧
    ∃ a1 a2, bitonicSort [0, 4, 2, 1, 3, 0] 1 (2 ^ 2 / 2) true = .ok a1 ∧
      bitonicSort a1 (1 + 2 ^ 2 / 2) (2 ^ 2 / 2) false = .ok a2 ∧
      (segment a2 1 (2 ^ 2 / 2)).Sorted (· ≤ ·) ∧
      (segment a2 (1 + 2 ^ 2 / 2) (2 ^ 2 / 2)).Sorted (· ≥ ·) ∧
      IsBitonic (segment a2 1 (2 ^ 2)) :=
  ⟨by simp [bitonicSort_of_gt, bitonicSort_of_le, bitonicMerge_of_gt, bitonicMerge_of_le,
      mergeLoop, cmpAndSwap, ok_bind],
    by simp [bitonicSort_of_gt, bitonicSort_of_le, bitonicMerge_of_gt, bitonicMerge_of_le,
      mergeLoop, cmpAndSwap, ok_bind],
    ⟨by decide, by decide⟩,
    halves_form_bitonic 2 [0, 4, 2, 1, 3, 0] 1 (by decide) (by decide)⟩

theorem two_mul_length_mergePairs :
    ∀ (m low : Nat) (dir : Bool), 2 * (mergePairs low (2 ^ m) dir).length = 2 ^ m * m := by
  intro m
  induction m with
  | zero =>
    intro low dir
    rw [mergePairs_of_le low dir (by simp)]
    rfl
  | succ m ih =>
    intro low dir
    have hk : 2 ^ (m + 1) / 2 = 2 ^ m := by rw [pow_succ]; omega
    have hpos : 0 < 2 ^ m := Nat.two_pow_pos m
    rw [mergePairs_of_gt low dir (by rw [pow_succ]; omega), hk]
    simp only [List.length_append, length_loopPairs]
    have h1 := ih low dir
    have h2 := ih (low + 2 ^ m) dir
    rw [pow_succ]
    nlinarith [h1, h2]

/-- C15: comparison count of the merge.  For every power-of-two `cnt = 2 ^ m` and
every input, `bitonicMerge(a, low, cnt, dir)` performs exactly
`(cnt / 2) * m = (cnt / 2) * log₂ cnt` calls of `cmpAndSwap`, whatever the
elements are, hence at most `cnt * log₂ cnt`. -/
theorem bitonicMerge_comparison_count (m : Nat) (a : List Int) (low : Nat) (dir : Bool)
    (hlen : low + 2 ^ m ≤ a.length) :
    ∃ b, bitonicMerge a low (2 ^ m) dir = .ok b ∧
      runPairs a (mergePairs low (2 ^ m) dir) = .ok b ∧
      (mergePairs low (2 ^ m) dir).length = 2 ^ m / 2 * m ∧
      Nat.log 2 (2 ^ m) = m ∧
      (mergePairs low (2 ^ m) dir).length ≤ 2 ^ m * Nat.log 2 (2 ^ m) := by
  obtain ⟨b, e, -⟩ := bitonicMerge_frame (2 ^ m) a low dir hlen
  have h := two_mul_length_mergePairs m low dir
  have hlog : Nat.log 2 (2 ^ m) = m := Nat.log_pow (by omega) m
  have hcount : (mergePairs low (2 ^ m) dir).length = 2 ^ m / 2 * m := by
    cases m with
    | zero => simpa using h
    | succ m =>
      have hk : 2 ^ (m + 1) / 2 = 2 ^ m := by rw [pow_succ]; omega
      rw [hk]
      generalize (mergePairs low (2 ^ (m + 1)) dir).length = L at h ⊢
      have h2 : 2 * L = 2 * (2 ^ m * (m + 1)) := by
        rw [h, pow_succ]
        ring
      exact Nat.eq_of_mul_eq_mul_left (by omega) h2
  refine ⟨b, e, ?_, hcount, hlog, ?_⟩
  · rw [← bitonicMerge_eq_runPairs, e]
  · rw [hlog]
    have : 2 * (mergePairs low (2 ^ m) dir).length ≤ 2 * (2 ^ m * m) := by
      rw [h]
      omega
    omega

/-- Concrete instance: merging the eight elements `[1, 3, 5, 7, 8, 6, 4, 2]` takes 12 calls. -/
theorem bitonicMerge_comparison_count_witness :
    (mergePairs 0 8 true).length = 12 ∧
    0 + 2 ^ 3 ≤ ([1, 3, 5, 7, 8, 6, 4, 2] : List Int).length ∧
    ∃ b, bitonicMerge [1, 3, 5, 7, 8, 6, 4, 2] 0 (2 ^ 3) true = .ok b ∧
      runPairs [1, 3, 5, 7, 8, 6, 4, 2] (mergePairs 0 (2 ^ 3) true) = .ok b ∧
      (mergePairs 0 (2 ^ 3) true).length = 2 ^ 3 / 2 * 3 ∧
      Nat.log 2 (2 ^ 3) = 3 ∧
      (mergePairs 0 (2 ^ 3) true).length ≤ 2 ^ 3 * Nat.log 2 (2 ^ 3) :=
  ⟨by simp [mergePairs_of_gt, mergePairs_of_le, loopPairs], by decide,
    bitonicMerge_comparison_count 3 [1, 3, 5, 7, 8, 6, 4, 2] 0 true (by decide)⟩

/-- C16: index safety for every count.  For every range `[low, low + cnt)` inside
the slice, `cnt` a power of two or not, every index pair `(i, j)` passed to
`cmpAndSwap` during `bitonicMerge`, `bitonicSort` or `bitonicSortParallel` (budget
at least one) on `(low, cnt)` has `low ≤ i < j < low + cnt`, and the three runs
return a slice: no access is out of bounds. -/
theorem index_safety (a : List Int) (low cnt : Nat) (dir : Bool) (budget : Int) (fuel : Nat)
    (hlen : low + cnt ≤ a.length) (hb : 1 ≤ budget) (hfuel : budget < 2 ^ fuel) :
    (∀ p ∈ mergePairs low cnt dir, low ≤ p.i ∧ p.i < p.j ∧ p.j < low + cnt) ∧
    (∀ p ∈ sortPairs low cnt dir, low ≤ p.i ∧ p.i < p.j ∧ p.j < low + cnt) ∧
    (∃ ps, parallelPairs fuel low cnt dir budget = some ps ∧
      ∀ p ∈ ps, low ≤ p.i ∧ p.i < p.j ∧ p.j < low + cnt) ∧
    (∃ b, bitonicMerge a low cnt dir = .ok b ∧
      runPairs a (mergePairs low cnt dir) = .ok b) ∧
    (∃ b, bitonicSort a low cnt dir = .ok b ∧
      runPairs a (sortPairs low cnt dir) = .ok b) ∧
    (∃ b, bitonicSortParallel fuel a low cnt dir budget = .ok b) := by
  have hm : ∀ p ∈ mergePairs low cnt dir, low ≤ p.i ∧ p.i < p.j ∧ p.j < low + cnt := by
    intro p hp
    obtain ⟨h1, h2, h3⟩ := mem_mergePairs cnt low dir p hp
    exact ⟨h1, h2, by omega⟩
  have hs : ∀ p ∈ sortPairs low cnt dir, low ≤ p.i ∧ p.i < p.j ∧ p.j < low + cnt := by
    intro p hp
    obtain ⟨h1, h2, h3⟩ := mem_sortPairs cnt low dir p hp
    exact ⟨h1, h2, by omega⟩
  obtain ⟨b1, e1, -⟩ := bitonicMerge_frame cnt a low dir hlen
  obtain ⟨b2, e2, -⟩ := bitonicSort_frame cnt a low dir hlen
  refine ⟨hm, hs, ⟨_, parallelPairs_eq_sortPairs fuel low cnt dir budget hb hfuel, hs⟩,
    ⟨b1, e1, ?_⟩, ⟨b2, e2, ?_⟩, ⟨b2, ?_⟩⟩
  · rw [← bitonicMerge_eq_runPairs, e1]
  · rw [← bitonicSort_eq_runPairs, e2]
  · rw [bitonicSortParallel_eq_bitonicSort fuel a low cnt dir budget hb hfuel, e2]

/-- Concrete instance: the range `[1, 6)` of count 5 of a slice of length 7, budget 3. -/
theorem index_safety_witness :
    sortPairs 1 5 true = [⟨1, 2, true⟩, ⟨3, 4, false⟩, ⟨1, 3, true⟩, ⟨2, 4, true⟩,
      ⟨1, 2, true⟩, ⟨3, 4, true⟩] ∧
    (1 + 5 ≤ ([7, 6, 5, 4, 3, 2, 1] : List Int).length ∧ (1 : Int) ≤ 3 ∧ (3 : Int) < 2 ^ 2) ∧
    ((∀ p ∈ mergePairs 1 5 true, 1 ≤ p.i ∧ p.i < p.j ∧ p.j < 1 + 5) ∧
    (∀ p ∈ sortPairs 1 5 true, 1 ≤ p.i ∧ p.i < p.j ∧ p.j < 1 + 5) ∧
    (∃ ps, parallelPairs 2 1 5 true 3 = some ps ∧
      ∀ p ∈ ps, 1 ≤ p.i ∧ p.i < p.j ∧ p.j < 1 + 5) ∧
    (∃ b, bitonicMerge [7, 6, 5, 4, 3, 2, 1] 1 5 true = .ok b ∧
      runPairs [7, 6, 5, 4, 3, 2, 1] (mergePairs 1 5 true) = .ok b) ∧
    (∃ b, bitonicSort [7, 6, 5, 4, 3, 2, 1] 1 5 true = .ok b ∧
      runPairs [7, 6, 5, 4, 3, 2, 1] (sortPairs 1 5 true) = .ok b) ∧
    (∃ b, bitonicSortParallel 2 [7, 6, 5, 4, 3, 2, 1] 1 5 true 3 = .ok b)) :=
  ⟨by simp [sortPairs_of_gt, sortPairs_of_le, mergePairs_of_gt, mergePairs_of_le, loopPairs],
    ⟨by decide, by decide, by decide⟩,
    index_safety [7, 6, 5, 4, 3, 2, 1] 1 5 true 3 2 (by decide) (by decide) (by decide)⟩

/-- On a slice of odd length `n` no call of `sortParallel` names index `n - 1`, and
the last element stays in place. -/
theorem odd_length_core (n : Nat) (a : List Int) (threadCount : Int) (fuel : Nat)
    (hodd : n % 2 = 1) (hlen : a.length = n)
    (ht : 1 ≤ threadCount) (hfuel : threadCount < 2 ^ fuel) :
    ∃ ps b, parallelPairs fuel 0 n true threadCount = some ps ∧
      (∀ p ∈ ps, p.i < n - 1 ∧ p.j < n - 1) ∧
      sortParallel fuel a n threadCount = .ok b ∧ b.Perm a ∧ b[n - 1]? = a[n - 1]? := by
  obtain ⟨b, e, -, pm, -⟩ := bitonicSort_frame n a 0 true (by omega)
  have hps : ∀ p ∈ sortPairs 0 n true, p.i < n - 1 ∧ p.j < n - 1 := by
    intro p hp
    obtain ⟨h1, h2, h3⟩ := mem_sortPairs n 0 true p hp
    exact ⟨by omega, by omega⟩
  refine ⟨_, b, parallelPairs_eq_sortPairs fuel 0 n true threadCount ht hfuel, hps, ?_, pm, ?_⟩
  · unfold sortParallel
    rw [bitonicSortParallel_eq_bitonicSort fuel a 0 n true threadCount ht hfuel, e]
  · rw [bitonicSort_eq_runPairs] at e
    apply runPairs_frame _ a b e
    intro p hp
    obtain ⟨h1, h2⟩ := hps p hp
    exact ⟨by omega, by omega⟩

/-- An input of odd length `n ≥ 3` whose smallest element comes last is not sorted
by `sortParallel`. -/
theorem odd_length_unsorted (n : Nat) (threadCount : Int) (fuel : Nat)
    (hodd : n % 2 = 1) (h3 : 3 ≤ n) (ht : 1 ≤ threadCount) (hfuel : threadCount < 2 ^ fuel) :
    ∃ a b : List Int, a.length = n ∧ sortParallel fuel a n threadCount = .ok b ∧
      ¬ b.Sorted (· ≤ ·) := by
  have hl : (List.replicate (n - 1) (1 : Int) ++ [0]).length = n := by
    simp
    omega
  obtain ⟨-, b, -, -, e, pm, hlast⟩ :=
    odd_length_core n (List.replicate (n - 1) (1 : Int) ++ [0]) threadCount fuel hodd hl ht hfuel
  refine ⟨_, b, hl, e, ?_⟩
  intro hs
  have hs0 : (0 :: List.replicate (n - 1) (1 : Int)).Sorted (· ≤ ·) := by
    unfold List.Sorted
    rw [List.pairwise_cons]
    constructor
    · intro x hx
      rw [List.eq_of_mem_replicate hx]
      omega
    · rw [List.pairwise_replicate]
      right
      omega
  have hb : b = 0 :: List.replicate (n - 1) (1 : Int) :=
    List.eq_of_perm_of_sorted (pm.trans List.perm_append_comm) hs hs0
  rw [hb] at hlast
  have h1 : (0 :: List.replicate (n - 1) (1 : Int))[n - 1]? = some 1 := by
    obtain ⟨k, hk⟩ : ∃ k, n - 1 = k + 1 := ⟨n - 2, by omega⟩
    rw [hk]
    simp
  have h2 : (List.replicate (n - 1) (1 : Int) ++ [0])[n - 1]? = some 0 := by
    rw [List.getElem?_append_right (by simp)]
    simp
  rw [h1, h2] at hlast
  cases hlast

/-- C17: the power-of-two precondition is necessary.  For every odd `n ≥ 3`, every
sequence of length `n` and every thread count of at least one, `sortParallel`
never passes index `n - 1` to `cmpAndSwap`, so the last element stays in place;
hence some input of length `n` is left unsorted, and `[3, 2, 1]` becomes `[2, 3, 1]`. -/
theorem odd_length_last_untouched (n : Nat) (a : List Int) (threadCount : Int) (fuel : Nat)
    (hodd : n % 2 = 1) (h3 : 3 ≤ n) (hlen : a.length = n)
    (ht : 1 ≤ threadCount) (hfuel : threadCount < 2 ^ fuel) :
    (∃ ps b, parallelPairs fuel 0 n true threadCount = some ps ∧
      (∀ p ∈ ps, p.i ≠ n - 1 ∧ p.j ≠ n - 1) ∧
      sortParallel fuel a n threadCount = .ok b ∧ b[n - 1]? = a[n - 1]?) ∧
    (∃ a' b' : List Int, a'.length = n ∧ sortParallel fuel a' n threadCount = .ok b' ∧
      ¬ b'.Sorted (· ≤ ·)) ∧
    sortParallel fuel [3, 2, 1] 3 threadCount = .ok [2, 3, 1] ∧
    ¬ ([2, 3, 1] : List Int).Sorted (· ≤ ·) := by
  obtain ⟨ps, b, e1, hps, e2, -, hlast⟩ := odd_length_core n a threadCount fuel hodd hlen ht hfuel
  refine ⟨⟨ps, b, e1, ?_, e2, hlast⟩,
    odd_length_unsorted n threadCount fuel hodd h3 ht hfuel, ?_, by decide⟩
  · intro p hp
    obtain ⟨h1, h2⟩ := hps p hp
    exact ⟨by omega, by omega⟩
  · unfold sortParallel
    rw [bitonicSortParallel_eq_bitonicSort fuel [3, 2, 1] 0 3 true threadCount ht hfuel]
    simp [bitonicSort_of_gt, bitonicSort_of_le, bitonicMerge_of_gt, bitonicMerge_of_le,
      mergeLoop, cmpAndSwap, ok_bind]

/-- Concrete instance: `[3, 2, 1]` with two threads. -/
theorem odd_length_last_untouched_witness :
    (3 % 2 = 1 ∧ 3 ≤ 3 ∧ ([3, 2, 1] : List Int).length = 3 ∧ (1 : Int) ≤ 2 ∧
      (2 : Int) < 2 ^ 2) ∧
    ((∃ ps b, parallelPairs 2 0 3 true 2 = some ps ∧
      (∀ p ∈ ps, p.i ≠ 3 - 1 ∧ p.j ≠ 3 - 1) ∧
      sortParallel 2 [3, 2, 1] 3 2 = .ok b ∧ b[3 - 1]? = ([3, 2, 1] : List Int)[3 - 1]?) ∧
    (∃ a' b' : List Int, a'.length = 3 ∧ sortParallel 2 a' 3 2 = .ok b' ∧
      ¬ b'.Sorted (· ≤ ·)) ∧
    sortParallel 2 [3, 2, 1] 3 2 = .ok [2, 3, 1] ∧
    ¬ ([2, 3, 1] : List Int).Sorted (· ≤ ·)) :=
  ⟨⟨by decide, by decide, by decide, by decide, by decide⟩,
    odd_length_last_untouched 3 [3, 2, 1] 2 2 (by decide) (by decide) (by decide)
      (by decide) (by decide)⟩

/-- C18: the precondition `threadCount ≥ 1` is necessary for termination.  For
every `threadCount ≤ 0` and every `n` the dispatcher recursion started by
`sortParallel` never reaches its base case: `availableThreads >> 1` maps 0 to 0
and a negative budget to a negative budget, so the budget is never 1, every call
forks again, and the run exhausts every finite fuel. -/
theorem nonpositive_budget_diverges (fuel : Nat) (a : List Int) (n : Nat) (threadCount : Int)
    (ht : threadCount ≤ 0) :
    sortParallel fuel a n threadCount = .error Err.outOfFuel ∧
    dispatchTree fuel 0 n true threadCount = none ∧
    threadCount ≠ 1 ∧ threadCount >>> (1 : Nat) ≤ 0 ∧
    (threadCount < 0 → threadCount >>> (1 : Nat) < 0) ∧
    (0 : Int) >>> (1 : Nat) = 0 := by
  obtain ⟨e1, e2⟩ := bitonicSortParallel_outOfFuel fuel a 0 n true threadCount ht
  have hs : threadCount >>> (1 : Nat) = threadCount / 2 := shiftRight_one threadCount
  refine ⟨e1, e2, by omega, by rw [hs]; omega, ?_, by decide⟩
  intro hneg
  rw [hs]
  omega

/-- Concrete instance: budgets 0 and -3 on `[2, 1]` with fuel 50. -/
theorem nonpositive_budget_diverges_witness :
    ((0 : Int) ≤ 0 ∧ (-3 : Int) ≤ 0) ∧
    sortParallel 50 [2, 1] 2 0 = .error Err.outOfFuel ∧
    (sortParallel 50 [2, 1] 2 (-3) = .error Err.outOfFuel ∧
      dispatchTree 50 0 2 true (-3) = none ∧
      (-3 : Int) ≠ 1 ∧ (-3 : Int) >>> (1 : Nat) ≤ 0 ∧
      ((-3 : Int) < 0 → (-3 : Int) >>> (1 : Nat) < 0) ∧
      (0 : Int) >>> (1 : Nat) = 0) :=
  ⟨⟨by decide, by decide⟩,
    (nonpositive_budget_diverges 50 [2, 1] 2 0 (by decide)).1,
    nonpositive_budget_diverges 50 [2, 1] 2 (-3) (by decide)⟩

end Bitonic
